import Mathlib

/-!
A verification development for the virtex configuration manager
(`virtex/config.py`).

The `Config` class in the source populates a schema of default values
(`_C.RANDOM_SEED = 0`, ..., lines 44-214), merges an optional YAML file
(`merge_from_file`, line 220), merges a flat override list
(`merge_from_list`, line 221), runs `add_derived_params` (line 223, a
no-op), and freezes the tree (line 226).  The tree operations themselves
(`set`, `merge_from_file`, `merge_from_list`, `freeze`, `dump`) live in the
`CfgNode` class of the external `fvcore`/`yacs` dependency, which is not
part of this repository's sources; those operations are modelled from the
specification (each such definition is marked `Modelled from the spec:`).
The schema contents and the construction pipeline are translated directly
from `virtex/config.py`.
-/

namespace Virtex

/-- A float value, modelled exactly as a decimal literal: `mant * 10 ^ (-exp)`.
The configuration never computes with floats; it only stores, compares and
serializes them, so the exact decimal representation is faithful. -/
structure FloatVal where
  mant : Int
  exp : Nat
deriving DecidableEq, Repr

/-- Scalar leaf values: integer, float, boolean or string. -/
inductive Scalar where
  | sInt : Int → Scalar
  | sFloat : FloatVal → Scalar
  | sBool : Bool → Scalar
  | sStr : String → Scalar
deriving DecidableEq, Repr

/-- A `Value` is a scalar or a homogeneous list of scalars (spec section 3). -/
inductive Value where
  | scalar : Scalar → Value
  | vList : List Scalar → Value
deriving DecidableEq, Repr

def vI (n : Int) : Value := .scalar (.sInt n)

def vF (m : Int) (e : Nat) : Value := .scalar (.sFloat ⟨m, e⟩)

def vB (b : Bool) : Value := .scalar (.sBool b)

def vS (s : String) : Value := .scalar (.sStr s)

/-- Kind index of a value: both numeric variants share one kind, which is
exactly the spec's type-compatibility rule (same variant, or both numeric). -/
def Value.kindIdx : Value → Nat
  | .scalar (.sInt _) => 0
  | .scalar (.sFloat _) => 0
  | .scalar (.sBool _) => 1
  | .scalar (.sStr _) => 2
  | .vList _ => 3

/-- Modelled from the spec: two values are type-compatible if they are the
same variant or both numeric (integer and float mutually coercible). -/
def Value.typeCompatible (a b : Value) : Bool := a.kindIdx == b.kindIdx

/-- Whether a value is numeric (integer or float). -/
def Value.isNum (a : Value) : Bool := a.kindIdx == 0

instance {ε α : Type} [DecidableEq ε] [DecidableEq α] : DecidableEq (Except ε α) := fun a b =>
  match a, b with
  | .error e, .error e' =>
    match decEq e e' with
    | .isTrue h => .isTrue (by rw [h])
    | .isFalse h => .isFalse (by intro hh; cases hh; exact h rfl)
  | .error _, .ok _ => .isFalse (by intro h; cases h)
  | .ok _, .error _ => .isFalse (by intro h; cases h)
  | .ok x, .ok y =>
    match decEq x y with
    | .isTrue h => .isTrue (by rw [h])
    | .isFalse h => .isFalse (by intro hh; cases hh; exact h rfl)

/-- Error taxonomy of the spec (section 7). -/
inductive CfgError where
  | unknownKey : String → CfgError
  | typeMismatch : String → CfgError
  | frozenMutation : CfgError
  | malformedOverride : CfgError
  | parseError : CfgError
  | notANode : String → CfgError
deriving DecidableEq, Repr

mutual
/-- A configuration tree node: a leaf `Value` or an ordered mapping of keys
to child nodes (the `CfgNode` of `fvcore`/`yacs`). -/
inductive CfgNode where
  | leaf : Value → CfgNode
  | node : Entries → CfgNode
deriving DecidableEq, Repr
/-- An ordered list of `(key, child)` entries of a config node. -/
inductive Entries where
  | nil : Entries
  | cons : String → CfgNode → Entries → Entries
deriving DecidableEq, Repr
end

/-- Builds entries from a plain list, in order. -/
def entriesOf : List (String × CfgNode) → Entries
  | [] => .nil
  | (k, c) :: rest => .cons k c (entriesOf rest)

/-- Looks a key up among the entries of a node, first match wins. -/
def Entries.lookup (k : String) : Entries → Option CfgNode
  | .nil => none
  | .cons k' c rest => if k' = k then some c else rest.lookup k

/-- Replaces the child stored at a key, leaving other entries untouched. -/
def Entries.update (k : String) (c : CfgNode) : Entries → Entries
  | .nil => .nil
  | .cons k' c' rest => if k' = k then .cons k' c rest else .cons k' c' (rest.update k c)

/-- Modelled from the spec: `set` on the tree (spec section 4.1), recursing
along the dotted path segments.  Fails with `UnknownKeyError` if a segment
is absent, `NotANodeError` if a non-terminal segment resolves to a value,
and `TypeMismatchError` if the new value is not type-compatible with the
existing one.  The freeze check lives in `Config.set` below.  On success a
type-compatible value is stored as supplied (numeric coercion lets an
integer stand at a float-typed path and conversely). -/
def CfgNode.setT : CfgNode → List String → Value → Except CfgError CfgNode
  | .leaf _, _, _ => .error (.notANode "")
  | .node _, [], _ => .error (.unknownKey "")
  | .node es, [k], v =>
    match es.lookup k with
    | none => .error (.unknownKey k)
    | some (.leaf old) =>
      if old.typeCompatible v then .ok (.node (es.update k (.leaf v)))
      else .error (.typeMismatch k)
    | some (.node _) => .error (.typeMismatch k)
  | .node es, k :: k' :: rest, v =>
    match es.lookup k with
    | none => .error (.unknownKey k)
    | some (.leaf _) => .error (.notANode k)
    | some (.node es') =>
      match (CfgNode.node es').setT (k' :: rest) v with
      | .ok c' => .ok (.node (es.update k c'))
      | .error e => .error e

/-- Reads the value stored at a path, `none` when the path does not resolve
to a leaf. -/
def CfgNode.leafAt : CfgNode → List String → Option Value
  | .leaf v, [] => some v
  | .leaf _, _ :: _ => none
  | .node _, [] => none
  | .node es, k :: rest =>
    match es.lookup k with
    | none => none
    | some c => c.leafAt rest

/-- First path segment that is absent from the tree while walking the path,
`none` when every segment resolves. -/
def CfgNode.firstAbsent : CfgNode → List String → Option String
  | _, [] => none
  | .leaf _, _ :: _ => none
  | .node es, k :: rest =>
    match es.lookup k with
    | none => some k
    | some c => c.firstAbsent rest

/-- The configuration object: the tree together with its frozen flag.  The
`Freeze Controller` of the spec marks every node; since the tree is only
ever reached from this root, one root flag consulted by every `set` is an
equivalent rendering. -/
structure Config where
  root : CfgNode
  frozen : Bool
deriving DecidableEq, Repr

/-- Modelled from the spec: `set` checks the freeze flag before anything
else (spec section 4.1: freeze-check is evaluated before key-existence
check), then delegates to the tree-level `setT`. -/
def Config.set (c : Config) (p : List String) (v : Value) : Except CfgError Config :=
  if c.frozen then .error .frozenMutation
  else (c.root.setT p v).map fun r => ⟨r, false⟩

/-- Modelled from the spec: the freeze transition (spec section 4.5). -/
def Config.freeze (c : Config) : Config := ⟨c.root, true⟩

/-- Splits a list of characters on dots. -/
def splitSegs : List Char → List (List Char)
  | [] => [[]]
  | c :: rest =>
    if c = '.' then [] :: splitSegs rest
    else
      match splitSegs rest with
      | [] => [[c]]
      | g :: gs => (c :: g) :: gs

/-- Modelled from the spec: the path resolver splits a dotted path into its
segments (spec section 4.4). -/
def splitPath (s : String) : List String := (splitSegs s.data).map String.mk

mutual
/-- All leaf paths of a tree paired with their values, in stored order. -/
def CfgNode.srcLeaves : CfgNode → List (List String × Value)
  | .leaf v => [([], v)]
  | .node es => es.srcLeaves
termination_by structural t => t
/-- Leaf paths with values contributed by a list of entries. -/
def Entries.srcLeaves : Entries → List (List String × Value)
  | .nil => []
  | .cons k c rest => (c.srcLeaves.map fun pv => (k :: pv.1, pv.2)) ++ rest.srcLeaves
termination_by structural es => es
end

/-- The set of leaf key paths of a tree, in stored order. -/
def CfgNode.leafPaths (t : CfgNode) : List (List String) := t.srcLeaves.map (·.1)

/-- Modelled from the spec: merge-from-list processes the flat override
list two entries at a time, applying `set` for each `(path, value)` pair in
sequence and stopping at the first failure; it returns the tree reached so
far together with the error, if any (spec section 4.3). -/
def mergeStep : Config → List Value → Config × Option CfgError
  | c, [] => (c, none)
  | c, .scalar (.sStr p) :: v :: rest =>
    match c.set (splitPath p) v with
    | .ok c' => mergeStep c' rest
    | .error e => (c, some e)
  | c, _ :: _ :: _ => (c, some .malformedOverride)
  | c, [_] => (c, some .malformedOverride)

/-- Modelled from the spec: `merge_from_list` rejects an odd-length list
with `MalformedOverrideError` before applying any pair, then processes the
pairs sequentially (spec section 4.3). -/
def Config.mergeFromList (c : Config) (l : List Value) : Except CfgError Config :=
  if l.length % 2 = 1 then .error .malformedOverride
  else
    match mergeStep c l with
    | (c', none) => .ok c'
    | (_, some e) => .error e

/-- First absent-segment witness over a list of override pairs. -/
def unknownIn (t : CfgNode) : List (List String × Value) → Option String
  | [] => none
  | (p, _) :: rest =>
    match t.firstAbsent p with
    | some k => some k
    | none => unknownIn t rest

/-- Applies a list of `(path, value)` assignments in sequence via `set`. -/
def applyPairs : Config → List (List String × Value) → Except CfgError Config
  | c, [] => .ok c
  | c, (p, v) :: rest =>
    match c.set p v with
    | .ok c' => applyPairs c' rest
    | .error e => .error e

/-- Modelled from the spec: `merge_from_file` works on the transient tree
parsed from the file; if any leaf path the source declares is absent from
the schema the whole merge fails with `UnknownKeyError` and nothing is
committed, otherwise every declared leaf is applied via `set` (spec section
4.3, all-or-nothing). -/
def Config.mergeFromFile (c : Config) (src : CfgNode) : Except CfgError Config :=
  match unknownIn c.root src.srcLeaves with
  | some k => .error (.unknownKey k)
  | none => applyPairs c src.srcLeaves

/-- The schema default copied from `DATA.MAX_CAPTION_LENGTH` into
`MODEL.DECODER.MAX_DECODING_STEPS` at schema-construction time
(`config.py` lines 93 and 167: the Python assignment copies the value). -/
def maxCaptionLengthDefault : Value := vI 30

/-- The default schema, translated entry by entry from the `_C` population
in `Config.__init__` (`config.py` lines 44-214), in source order. -/
def defaultSchema : CfgNode :=
  .node (entriesOf [
    ("RANDOM_SEED", .leaf (vI 0)),
    ("AMP", .leaf (vB true)),
    ("CUDNN_DETERMINISTIC", .leaf (vB false)),
    ("CUDNN_BENCHMARK", .leaf (vB true)),
    ("DATA", .node (entriesOf [
      ("ROOT", .leaf (vS "datasets/coco")),
      ("TOKENIZER_MODEL", .leaf (vS "datasets/vocab/coco_10k.model")),
      ("VOCAB_SIZE", .leaf (vI 10000)),
      ("UNK_INDEX", .leaf (vI 0)),
      ("SOS_INDEX", .leaf (vI 1)),
      ("EOS_INDEX", .leaf (vI 2)),
      ("MASK_INDEX", .leaf (vI 3)),
      ("IMAGE_CROP_SIZE", .leaf (vI 224)),
      ("MAX_CAPTION_LENGTH", .leaf maxCaptionLengthDefault),
      ("IMAGE_TRANSFORM_TRAIN", .leaf (.vList [.sStr "random_resized_crop",
        .sStr "horizontal_flip", .sStr "color_jitter", .sStr "normalize"])),
      ("IMAGE_TRANSFORM_VAL", .leaf (.vList [.sStr "smallest_resize",
        .sStr "center_crop", .sStr "normalize"])),
      ("MASKED_LM", .node (entriesOf [
        ("MASK_PROPORTION", .leaf (vF 15 2)),
        ("MASK_PROBABILITY", .leaf (vF 85 2)),
        ("REPLACE_PROBABILITY", .leaf (vF 10 2))]))])),
    ("MODEL", .node (entriesOf [
      ("NAME", .leaf (vS "virtex")),
      ("VISUAL", .node (entriesOf [
        ("NAME", .leaf (vS "torchvision::resnet50")),
        ("FEATURE_SIZE", .leaf (vI 2048)),
        ("PRETRAINED", .leaf (vB false)),
        ("FROZEN", .leaf (vB false))])),
      ("TEXTUAL", .node (entriesOf [
        ("NAME", .leaf (vS "transdec_postnorm::L1_H2048_A32_F8192")),
        ("DROPOUT", .leaf (vF 1 1))])),
      ("DECODER", .node (entriesOf [
        ("NAME", .leaf (vS "beam_search")),
        ("BEAM_SIZE", .leaf (vI 5)),
        ("NUCLEUS_SIZE", .leaf (vF 9 1)),
        ("MAX_DECODING_STEPS", .leaf maxCaptionLengthDefault)]))])),
    ("OPTIM", .node (entriesOf [
      ("OPTIMIZER_NAME", .leaf (vS "sgd")),
      ("SGD_MOMENTUM", .leaf (vF 9 1)),
      ("WEIGHT_DECAY", .leaf (vF 1 4)),
      ("NO_DECAY", .leaf (vS ".*textual.(embedding|transformer).*(norm.*|bias)")),
      ("CLIP_GRAD_NORM", .leaf (vF 100 1)),
      ("LOOKAHEAD", .node (entriesOf [
        ("USE", .leaf (vB true)),
        ("ALPHA", .leaf (vF 5 1)),
        ("STEPS", .leaf (vI 5))])),
      ("BATCH_SIZE", .leaf (vI 256)),
      ("CNN_LR", .leaf (vF 2 1)),
      ("LR", .leaf (vF 1 3)),
      ("NUM_ITERATIONS", .leaf (vI 500000)),
      ("WARMUP_STEPS", .leaf (vI 10000)),
      ("LR_DECAY_NAME", .leaf (vS "cosine")),
      ("LR_STEPS", .leaf (.vList [])),
      ("LR_GAMMA", .leaf (vF 1 1))]))])

/-- The `add_derived_params` hook of the source (`config.py` lines 228-232):
it is a `pass`, so the identity on the tree. -/
def addDerivedParams (c : Config) : Config := c

/-- The construction pipeline of `Config.__init__` (`config.py` lines
216-226): start from the populated schema, merge the parsed file source if
one was given, merge the override list, add derived parameters, freeze.
The YAML file argument is modelled as its parsed transient tree. -/
def Config.build (config_file : Option CfgNode) (override_list : List Value) :
    Except CfgError Config := do
  let c0 : Config := ⟨defaultSchema, false⟩
  let c1 ← match config_file with
    | none => Except.ok c0
    | some src => c0.mergeFromFile src
  let c2 ← c1.mergeFromList override_list
  Except.ok (addDerivedParams c2).freeze

/-- A transient source tree declaring exactly one leaf path. -/
def srcSingleton : List String → Value → CfgNode
  | [], v => .leaf v
  | k :: rest, v => .node (.cons k (srcSingleton rest v) .nil)

/-- The dotted paths targeted by an override list, in order. -/
def listTargets : List Value → List (List String)
  | [] => []
  | .scalar (.sStr p) :: _ :: rest => splitPath p :: listTargets rest
  | _ :: _ :: rest => listTargets rest
  | [_] => []

/-- Characters legal in a key name. -/
def keyCharOk (c : Char) : Bool := c.isAlpha || c.isDigit || c == '_'

/-- A key is a non-empty run of key characters. -/
def keyOk (k : String) : Bool := !k.data.isEmpty && k.data.all keyCharOk

mutual
/-- Whether every key in the tree is well-formed. -/
def CfgNode.wfKeys : CfgNode → Bool
  | .leaf _ => true
  | .node es => es.wfKeys
termination_by structural t => t
/-- Whether every key in a list of entries and below is well-formed. -/
def Entries.wfKeys : Entries → Bool
  | .nil => true
  | .cons k c rest => keyOk k && c.wfKeys && rest.wfKeys
termination_by structural es => es
end

/-- The decimal digit character for a digit value. -/
def digitCh : Nat → Char
  | 0 => '0'
  | 1 => '1'
  | 2 => '2'
  | 3 => '3'
  | 4 => '4'
  | 5 => '5'
  | 6 => '6'
  | 7 => '7'
  | 8 => '8'
  | _ => '9'

/-- Decimal digits of a natural number, most significant first, with fuel. -/
def natDigitsF : Nat → Nat → List Char
  | 0, _ => []
  | fuel + 1, n =>
    if n < 10 then [digitCh n] else natDigitsF fuel (n / 10) ++ [digitCh (n % 10)]

/-- Decimal digits of a natural number, most significant first. -/
def natDigits (n : Nat) : List Char := natDigitsF (n + 1) n

/-- The natural number denoted by a big-endian string of decimal digits. -/
def natVal (ds : List Char) : Nat := ds.foldl (fun acc c => acc * 10 + (c.toNat - 48)) 0

/-- Modelled from the spec: integer literal rendering (conventional decimal
notation). -/
def dumpInt : Int → List Char
  | .ofNat m => natDigits m
  | .negSucc m => '-' :: natDigits (m + 1)

/-- Decimal rendering of `m * 10 ^ (-e)` for a natural mantissa: the digits
of `m`, left-padded with zeros as needed, with a point before the last `e`
digits. -/
def dumpNatFloat (m e : Nat) : List Char :=
  let ds := natDigits m
  let pd := List.replicate (e + 1 - ds.length) '0' ++ ds
  pd.take (pd.length - e) ++ '.' :: pd.drop (pd.length - e)

/-- Modelled from the spec: float literal rendering (conventional decimal
point notation, type-preserving — the point distinguishes it from an
integer literal). -/
def dumpFloat : Int → Nat → List Char
  | .ofNat m, e => dumpNatFloat m e
  | .negSucc m, e => '-' :: dumpNatFloat (m + 1) e

/-- Escapes backslashes and quotes inside a string literal body. -/
def escapeChars : List Char → List Char
  | [] => []
  | c :: rest =>
    if c = '\\' ∨ c = '"' then '\\' :: c :: escapeChars rest
    else c :: escapeChars rest

/-- Modelled from the spec: scalar literal rendering using a
type-preserving literal form (spec section 4.7). -/
def Scalar.dumpScalar : Scalar → List Char
  | .sInt n => dumpInt n
  | .sFloat f => dumpFloat f.mant f.exp
  | .sBool true => ['t', 'r', 'u', 'e']
  | .sBool false => ['f', 'a', 'l', 's', 'e']
  | .sStr s => '"' :: (escapeChars s.data ++ ['"'])

/-- Renders the elements of a list value, each followed by a comma. -/
def dumpScalars : List Scalar → List Char
  | [] => []
  | x :: rest => x.dumpScalar ++ ',' :: dumpScalars rest

/-- Modelled from the spec: value rendering — a scalar literal or an
explicit bracketed list of scalar literals (spec sections 4.7 and 6). -/
def Value.dumpValue : Value → List Char
  | .scalar s => s.dumpScalar
  | .vList xs => '[' :: (dumpScalars xs ++ [']'])

mutual
/-- Modelled from the spec: deterministic tree rendering, keys in stored
order, nested nodes as explicitly delimited blocks (spec section 4.7; the
parenthesis block is the spec's `equivalent explicit nesting marker`). -/
def CfgNode.dumpChars : CfgNode → List Char
  | .leaf v => v.dumpValue
  | .node es => '(' :: (es.dumpChars ++ [')'])
termination_by structural t => t
/-- Renders entries as `key=child;` sequences. -/
def Entries.dumpChars : Entries → List Char
  | .nil => []
  | .cons k c rest => k.data ++ '=' :: (c.dumpChars ++ ';' :: rest.dumpChars)
termination_by structural es => es
end

mutual
/-- Parser-fuel measure of a tree. -/
def CfgNode.psize : CfgNode → Nat
  | .leaf _ => 1
  | .node es => es.psize + 1
termination_by structural t => t
/-- Parser-fuel measure of a list of entries. -/
def Entries.psize : Entries → Nat
  | .nil => 1
  | .cons _ c rest => c.psize + rest.psize + 1
termination_by structural es => es
end

/-- The serialization of the configuration (`Config.dump` of `config.py`
lines 234-242 renders the tree as structured text; the model returns the
text instead of writing it to the file path). -/
def Config.dump (c : Config) : String := String.mk c.root.dumpChars

/-- An unsigned numeric token: integer, or decimal float as mantissa and
number of fractional digits. -/
inductive NumTok where
  | intg : Nat → NumTok
  | flt : Nat → Nat → NumTok
deriving DecidableEq, Repr

/-- Parses a string literal body up to the closing quote, undoing
escapes. -/
def parseStringBody : List Char → Option (List Char × List Char)
  | [] => none
  | c :: rest =>
    if c = '\\' then
      match rest with
      | [] => none
      | c2 :: rest2 =>
        match parseStringBody rest2 with
        | none => none
        | some (s, r) => some (c2 :: s, r)
    else if c = '"' then some ([], rest)
    else
      match parseStringBody rest with
      | none => none
      | some (s, r) => some (c :: s, r)
termination_by structural cs => cs

/-- Parses an unsigned numeric literal: a digit run, optionally followed by
a point and a fractional digit run. -/
def parseUnsigned (cs : List Char) : Option (NumTok × List Char) :=
  let ds := cs.takeWhile Char.isDigit
  let r0 := cs.dropWhile Char.isDigit
  if ds = [] then none
  else
    match r0 with
    | '.' :: r1 =>
      some (.flt (natVal (ds ++ r1.takeWhile Char.isDigit))
        (r1.takeWhile Char.isDigit).length, r1.dropWhile Char.isDigit)
    | _ => some (.intg (natVal ds), r0)

/-- Applies a leading minus sign to a parsed numeric token. -/
def applySign : Bool → NumTok → Scalar
  | false, .intg n => .sInt (Int.ofNat n)
  | true, .intg n => .sInt (-(Int.ofNat n))
  | false, .flt m e => .sFloat ⟨Int.ofNat m, e⟩
  | true, .flt m e => .sFloat ⟨-(Int.ofNat m), e⟩

/-- Modelled from the spec: scalar literal parsing, dispatching on the
first character (spec section 4.7: re-parsing infers the original type). -/
def parseScalar : List Char → Option (Scalar × List Char)
  | [] => none
  | c :: tl =>
    if c = 't' then
      match c :: tl with
      | 't' :: 'r' :: 'u' :: 'e' :: rest => some (.sBool true, rest)
      | _ => none
    else if c = 'f' then
      match c :: tl with
      | 'f' :: 'a' :: 'l' :: 's' :: 'e' :: rest => some (.sBool false, rest)
      | _ => none
    else if c = '"' then
      match parseStringBody tl with
      | none => none
      | some (s, r) => some (.sStr (String.mk s), r)
    else if c = '-' then
      match parseUnsigned tl with
      | none => none
      | some (t, r) => some (applySign true t, r)
    else
      match parseUnsigned (c :: tl) with
      | none => none
      | some (t, r) => some (applySign false t, r)

/-- Parses comma-terminated scalars up to the closing bracket. -/
def parseScalarsF : Nat → List Char → Option (List Scalar × List Char)
  | 0, _ => none
  | _ + 1, [] => none
  | fuel + 1, c :: tl =>
    if c = ']' then some ([], tl)
    else
      match parseScalar (c :: tl) with
      | none => none
      | some (s, r1) =>
        match r1 with
        | ',' :: r2 =>
          match parseScalarsF fuel r2 with
          | none => none
          | some (xs, r) => some (s :: xs, r)
        | _ => none

/-- Parses a value: a bracketed scalar list or a single scalar literal. -/
def parseValueChars : List Char → Option (Value × List Char)
  | [] => none
  | c :: tl =>
    if c = '[' then
      match parseScalarsF (tl.length + 1) tl with
      | none => none
      | some (xs, r) => some (.vList xs, r)
    else
      match parseScalar (c :: tl) with
      | none => none
      | some (s, r) => some (.scalar s, r)

mutual
/-- Modelled from the spec: structured-text parsing of a tree (spec section
4.7), with fuel bounding the nesting work. -/
def parseTreeF : Nat → List Char → Option (CfgNode × List Char)
  | 0, _ => none
  | _ + 1, [] => none
  | fuel + 1, c :: tl =>
    if c = '(' then
      match parseEntriesF fuel tl with
      | none => none
      | some (es, r) => some (.node es, r)
    else
      match parseValueChars (c :: tl) with
      | none => none
      | some (v, r) => some (.leaf v, r)
termination_by structural fuel _ => fuel
/-- Parses `key=child;` entries up to the closing parenthesis. -/
def parseEntriesF : Nat → List Char → Option (Entries × List Char)
  | 0, _ => none
  | _ + 1, [] => none
  | fuel + 1, c :: tl =>
    if c = ')' then some (.nil, tl)
    else
      let k := (c :: tl).takeWhile keyCharOk
      let r0 := (c :: tl).dropWhile keyCharOk
      if k = [] then none
      else
        match r0 with
        | '=' :: r1 =>
          match parseTreeF fuel r1 with
          | none => none
          | some (child, r2) =>
            match r2 with
            | ';' :: r3 =>
              match parseEntriesF fuel r3 with
              | none => none
              | some (es, r) => some (.cons (String.mk k) child es, r)
            | _ => none
        | _ => none
termination_by structural fuel _ => fuel
end

/-- Modelled from the spec: `parse` reconstructs a transient tree from the
structured text, failing with `ParseError` on malformed text (spec section
4.7). -/
def parse (s : String) : Except CfgError CfgNode :=
  match parseTreeF (s.data.length + 1) s.data with
  | some (t, []) => .ok t
  | _ => .error .parseError


theorem typeCompatible_trans {a b c : Value} (h1 : a.typeCompatible b = true)
    (h2 : a.typeCompatible c = true) : b.typeCompatible c = true := by
  simp only [Value.typeCompatible, beq_iff_eq] at h1 h2 ⊢
  omega

theorem lookup_update_self {k : String} {c0 : CfgNode} (c : CfgNode) :
    ∀ es : Entries, es.lookup k = some c0 → (es.update k c).lookup k = some c
  | .nil, h => by simp [Entries.lookup] at h
  | .cons k' c' rest, h => by
    by_cases hk : k' = k
    · simp [Entries.update, Entries.lookup, hk]
    · simp only [Entries.lookup, if_neg hk] at h
      simp [Entries.update, Entries.lookup, hk, lookup_update_self c rest h]

theorem lookup_update_ne {k k' : String} (c : CfgNode) (h : k' ≠ k) :
    ∀ es : Entries, (es.update k c).lookup k' = es.lookup k'
  | .nil => by simp [Entries.update]
  | .cons k2 c2 rest => by
    by_cases hk : k2 = k
    · subst hk
      have h2 : k2 ≠ k' := fun hh => h hh.symm
      simp [Entries.update, Entries.lookup, h2]
    · simp only [Entries.update, if_neg hk]
      by_cases hk2 : k2 = k'
      · simp [Entries.lookup, hk2]
      · simp [Entries.lookup, hk2, lookup_update_ne c h rest]

theorem map_fst_cons_key (k : String) (l : List (List String × Value)) :
    (l.map fun pv => (k :: pv.1, pv.2)).map (·.1) = (l.map (·.1)).map (k :: ·) := by
  induction l with
  | nil => rfl
  | cons x xs ih => simp [ih]

theorem srcLeaves_fst_update {k : String} {c0 c : CfgNode}
    (hpaths : c.srcLeaves.map (·.1) = c0.srcLeaves.map (·.1)) :
    ∀ es : Entries, es.lookup k = some c0 →
      (es.update k c).srcLeaves.map (·.1) = es.srcLeaves.map (·.1)
  | .nil, hl => by simp [Entries.lookup] at hl
  | .cons k' c' rest, hl => by
    by_cases hk : k' = k
    · subst hk
      simp only [Entries.lookup, if_pos] at hl
      replace hl : c' = c0 := Option.some.inj hl
      subst hl
      simp only [Entries.update, if_pos, Entries.srcLeaves, List.map_append,
        map_fst_cons_key, hpaths]
    · simp only [Entries.lookup, if_neg hk] at hl
      simp only [Entries.update, if_neg hk, Entries.srcLeaves, List.map_append]
      rw [srcLeaves_fst_update hpaths rest hl]

theorem wfKeys_update {k : String} {c0 c : CfgNode} (hwf : c.wfKeys = c0.wfKeys) :
    ∀ es : Entries, es.lookup k = some c0 → (es.update k c).wfKeys = es.wfKeys
  | .nil, hl => by simp [Entries.lookup] at hl
  | .cons k' c' rest, hl => by
    by_cases hk : k' = k
    · subst hk
      simp only [Entries.lookup, if_pos] at hl
      replace hl : c' = c0 := Option.some.inj hl
      subst hl
      simp [Entries.update, Entries.wfKeys, hwf]
    · simp only [Entries.lookup, if_neg hk] at hl
      simp [Entries.update, if_neg hk, Entries.wfKeys, wfKeys_update hwf rest hl]

theorem setT_isOk {p : List String} : ∀ {t : CfgNode} {d : Value} (v : Value),
    t.leafAt p = some d → d.typeCompatible v = true → p ≠ [] →
    ∃ t', t.setT p v = .ok t' := by
  induction p with
  | nil => intro t d v _ _ hp; exact absurd rfl hp
  | cons k rest ih =>
    intro t d v hleaf hcompat _
    cases t with
    | leaf w => simp [CfgNode.leafAt] at hleaf
    | node es =>
      simp only [CfgNode.leafAt] at hleaf
      cases hlk : es.lookup k with
      | none => simp [hlk] at hleaf
      | some c =>
        simp only [hlk] at hleaf
        cases rest with
        | nil =>
          cases c with
          | node es' => simp [CfgNode.leafAt] at hleaf
          | leaf w =>
            simp only [CfgNode.leafAt, Option.some.injEq] at hleaf
            subst hleaf
            exact ⟨CfgNode.node (es.update k (.leaf v)),
              by simp [CfgNode.setT, hlk, hcompat]⟩
        | cons k' rest' =>
          cases c with
          | leaf w => simp [CfgNode.leafAt] at hleaf
          | node es' =>
            obtain ⟨t'', ht''⟩ := ih v hleaf hcompat (by simp)
            exact ⟨CfgNode.node (es.update k t''), by simp [CfgNode.setT, hlk, ht'']⟩

theorem setT_ok_leafAt_self {p : List String} : ∀ {t t' : CfgNode} {v : Value},
    t.setT p v = .ok t' → t'.leafAt p = some v := by
  induction p with
  | nil => intro t t' v h; cases t <;> simp [CfgNode.setT] at h
  | cons k rest ih =>
    intro t t' v h
    cases t with
    | leaf w => simp [CfgNode.setT] at h
    | node es =>
      cases rest with
      | nil =>
        cases hlk : es.lookup k with
        | none => simp [CfgNode.setT, hlk] at h
        | some c =>
          cases c with
          | node es' => simp [CfgNode.setT, hlk] at h
          | leaf old =>
            by_cases hc : old.typeCompatible v = true
            · simp only [CfgNode.setT, hlk, hc, if_true, Except.ok.injEq] at h
              subst h
              simp [CfgNode.leafAt, lookup_update_self _ _ hlk]
            · simp [CfgNode.setT, hlk, hc] at h
      | cons k' rest' =>
        cases hlk : es.lookup k with
        | none => simp [CfgNode.setT, hlk] at h
        | some c =>
          cases c with
          | leaf w => simp [CfgNode.setT, hlk] at h
          | node es' =>
            simp only [CfgNode.setT, hlk] at h
            cases hrec : (CfgNode.node es').setT (k' :: rest') v with
            | error e => simp [hrec] at h
            | ok c'' =>
              simp only [hrec, Except.ok.injEq] at h
              subst h
              simp [CfgNode.leafAt, lookup_update_self _ _ hlk, ih hrec]

theorem setT_ok_leafAt_ne {p : List String} :
    ∀ {t t' : CfgNode} {v : Value} {q : List String},
    t.setT p v = .ok t' → q ≠ p → t'.leafAt q = t.leafAt q := by
  induction p with
  | nil => intro t t' v q h _; cases t <;> simp [CfgNode.setT] at h
  | cons k rest ih =>
    intro t t' v q h hq
    cases t with
    | leaf w => simp [CfgNode.setT] at h
    | node es =>
      cases rest with
      | nil =>
        cases hlk : es.lookup k with
        | none => simp [CfgNode.setT, hlk] at h
        | some c =>
          cases c with
          | node es' => simp [CfgNode.setT, hlk] at h
          | leaf old =>
            by_cases hc : old.typeCompatible v = true
            · simp only [CfgNode.setT, hlk, hc, if_true, Except.ok.injEq] at h
              subst h
              cases q with
              | nil => simp [CfgNode.leafAt]
              | cons kq qr =>
                by_cases hkq : kq = k
                · subst hkq
                  have hqr : qr ≠ [] := by intro hh; exact hq (by rw [hh])
                  cases qr with
                  | nil => exact absurd rfl hqr
                  | cons a b =>
                    simp [CfgNode.leafAt, lookup_update_self _ _ hlk, hlk]
                · simp [CfgNode.leafAt, lookup_update_ne _ (fun hh => hkq hh) _, hlk]
            · simp [CfgNode.setT, hlk, hc] at h
      | cons k' rest' =>
        cases hlk : es.lookup k with
        | none => simp [CfgNode.setT, hlk] at h
        | some c =>
          cases c with
          | leaf w => simp [CfgNode.setT, hlk] at h
          | node es' =>
            simp only [CfgNode.setT, hlk] at h
            cases hrec : (CfgNode.node es').setT (k' :: rest') v with
            | error e => simp [hrec] at h
            | ok c'' =>
              simp only [hrec, Except.ok.injEq] at h
              subst h
              cases q with
              | nil => simp [CfgNode.leafAt]
              | cons kq qr =>
                by_cases hkq : kq = k
                · subst hkq
                  have hqr : qr ≠ k' :: rest' := by
                    intro hh; exact hq (by rw [hh])
                  simp [CfgNode.leafAt, lookup_update_self _ _ hlk, hlk, ih hrec hqr]
                · simp [CfgNode.leafAt, lookup_update_ne _ (fun hh => hkq hh) _, hlk]

theorem setT_ok_leafPaths {p : List String} : ∀ {t t' : CfgNode} {v : Value},
    t.setT p v = .ok t' → t'.leafPaths = t.leafPaths := by
  induction p with
  | nil => intro t t' v h; cases t <;> simp [CfgNode.setT] at h
  | cons k rest ih =>
    intro t t' v h
    cases t with
    | leaf w => simp [CfgNode.setT] at h
    | node es =>
      cases rest with
      | nil =>
        cases hlk : es.lookup k with
        | none => simp [CfgNode.setT, hlk] at h
        | some c =>
          cases c with
          | node es' => simp [CfgNode.setT, hlk] at h
          | leaf old =>
            by_cases hc : old.typeCompatible v = true
            · simp only [CfgNode.setT, hlk, hc, if_true, Except.ok.injEq] at h
              subst h
              simp only [CfgNode.leafPaths, CfgNode.srcLeaves]
              exact srcLeaves_fst_update (by simp [CfgNode.srcLeaves]) _ hlk
            · simp [CfgNode.setT, hlk, hc] at h
      | cons k' rest' =>
        cases hlk : es.lookup k with
        | none => simp [CfgNode.setT, hlk] at h
        | some c =>
          cases c with
          | leaf w => simp [CfgNode.setT, hlk] at h
          | node es' =>
            simp only [CfgNode.setT, hlk] at h
            cases hrec : (CfgNode.node es').setT (k' :: rest') v with
            | error e => simp [hrec] at h
            | ok c'' =>
              simp only [hrec, Except.ok.injEq] at h
              subst h
              simp only [CfgNode.leafPaths, CfgNode.srcLeaves]
              exact srcLeaves_fst_update (ih hrec) _ hlk

theorem setT_ok_wfKeys {p : List String} : ∀ {t t' : CfgNode} {v : Value},
    t.setT p v = .ok t' → t'.wfKeys = t.wfKeys := by
  induction p with
  | nil => intro t t' v h; cases t <;> simp [CfgNode.setT] at h
  | cons k rest ih =>
    intro t t' v h
    cases t with
    | leaf w => simp [CfgNode.setT] at h
    | node es =>
      cases rest with
      | nil =>
        cases hlk : es.lookup k with
        | none => simp [CfgNode.setT, hlk] at h
        | some c =>
          cases c with
          | node es' => simp [CfgNode.setT, hlk] at h
          | leaf old =>
            by_cases hc : old.typeCompatible v = true
            · simp only [CfgNode.setT, hlk, hc, if_true, Except.ok.injEq] at h
              subst h
              simp only [CfgNode.wfKeys]
              exact wfKeys_update (by simp [CfgNode.wfKeys]) _ hlk
            · simp [CfgNode.setT, hlk, hc] at h
      | cons k' rest' =>
        cases hlk : es.lookup k with
        | none => simp [CfgNode.setT, hlk] at h
        | some c =>
          cases c with
          | leaf w => simp [CfgNode.setT, hlk] at h
          | node es' =>
            simp only [CfgNode.setT, hlk] at h
            cases hrec : (CfgNode.node es').setT (k' :: rest') v with
            | error e => simp [hrec] at h
            | ok c'' =>
              simp only [hrec, Except.ok.injEq] at h
              subst h
              simp only [CfgNode.wfKeys]
              exact wfKeys_update (ih hrec) _ hlk

theorem setT_mismatch {p : List String} : ∀ {t : CfgNode} {d : Value} (v : Value),
    t.leafAt p = some d → d.typeCompatible v = false → p ≠ [] →
    ∃ k, t.setT p v = .error (.typeMismatch k) := by
  induction p with
  | nil => intro t d v _ _ hp; exact absurd rfl hp
  | cons k rest ih =>
    intro t d v hleaf hcompat _
    cases t with
    | leaf w => simp [CfgNode.leafAt] at hleaf
    | node es =>
      simp only [CfgNode.leafAt] at hleaf
      cases hlk : es.lookup k with
      | none => simp [hlk] at hleaf
      | some c =>
        simp only [hlk] at hleaf
        cases rest with
        | nil =>
          cases c with
          | node es' => simp [CfgNode.leafAt] at hleaf
          | leaf w =>
            simp only [CfgNode.leafAt, Option.some.injEq] at hleaf
            subst hleaf
            exact ⟨k, by simp [CfgNode.setT, hlk, hcompat]⟩
        | cons k' rest' =>
          cases c with
          | leaf w => simp [CfgNode.leafAt] at hleaf
          | node es' =>
            obtain ⟨k0, hk0⟩ := ih v hleaf hcompat (by simp)
            exact ⟨k0, by simp [CfgNode.setT, hlk, hk0]⟩

theorem setT_absent {p : List String} : ∀ {t : CfgNode} {k : String} (v : Value),
    t.firstAbsent p = some k → t.setT p v = .error (.unknownKey k) := by
  induction p with
  | nil => intro t k v h; simp [CfgNode.firstAbsent] at h
  | cons k0 rest ih =>
    intro t k v h
    cases t with
    | leaf w => simp [CfgNode.firstAbsent] at h
    | node es =>
      simp only [CfgNode.firstAbsent] at h
      cases hlk : es.lookup k0 with
      | none =>
        simp only [hlk, Option.some.injEq] at h
        subst h
        cases rest <;> simp [CfgNode.setT, hlk]
      | some c =>
        simp only [hlk] at h
        cases rest with
        | nil => simp [CfgNode.firstAbsent] at h
        | cons k' rest' =>
          cases c with
          | leaf w => simp [CfgNode.firstAbsent] at h
          | node es' => simp [CfgNode.setT, hlk, ih v h]

theorem firstAbsent_of_leafAt {p : List String} : ∀ {t : CfgNode} {d : Value},
    t.leafAt p = some d → t.firstAbsent p = none := by
  induction p with
  | nil => intro t d _; simp [CfgNode.firstAbsent]
  | cons k rest ih =>
    intro t d hleaf
    cases t with
    | leaf w => simp [CfgNode.leafAt] at hleaf
    | node es =>
      simp only [CfgNode.leafAt] at hleaf
      cases hlk : es.lookup k with
      | none => simp [hlk] at hleaf
      | some c =>
        simp only [hlk] at hleaf
        simp [CfgNode.firstAbsent, hlk, ih hleaf]

theorem cfgSet_ok_elim {c c' : Config} {p : List String} {v : Value}
    (h : c.set p v = .ok c') :
    c.frozen = false ∧ c.root.setT p v = .ok c'.root ∧ c'.frozen = false := by
  by_cases hf : c.frozen
  · simp [Config.set, hf] at h
  · simp only [Config.set, hf, if_false, Bool.false_eq_true] at h
    cases hs : c.root.setT p v with
    | error e => simp [hs, Except.map] at h
    | ok t' =>
      simp only [hs, Except.map, Except.ok.injEq] at h
      subst h
      exact ⟨by simp [hf], rfl, rfl⟩

theorem cfgSet_ok_leafPaths {c c' : Config} {p : List String} {v : Value}
    (h : c.set p v = .ok c') : c'.root.leafPaths = c.root.leafPaths :=
  setT_ok_leafPaths (cfgSet_ok_elim h).2.1

theorem cfgSet_ok_wfKeys {c c' : Config} {p : List String} {v : Value}
    (h : c.set p v = .ok c') : c'.root.wfKeys = c.root.wfKeys :=
  setT_ok_wfKeys (cfgSet_ok_elim h).2.1

theorem cfgSet_ok_leafAt_self {c c' : Config} {p : List String} {v : Value}
    (h : c.set p v = .ok c') : c'.root.leafAt p = some v :=
  setT_ok_leafAt_self (cfgSet_ok_elim h).2.1

theorem cfgSet_ok_leafAt_ne {c c' : Config} {p q : List String} {v : Value}
    (h : c.set p v = .ok c') (hq : q ≠ p) : c'.root.leafAt q = c.root.leafAt q :=
  setT_ok_leafAt_ne (cfgSet_ok_elim h).2.1 hq

theorem mergeStep_append_ok (l2 : List Value) :
    ∀ (l1 : List Value) (c c1 : Config), l1.length % 2 = 0 →
      mergeStep c l1 = (c1, none) → mergeStep c (l1 ++ l2) = mergeStep c1 l2
  | [], c, c1, _, h => by
    simp only [mergeStep, Prod.mk.injEq] at h
    rw [List.nil_append, h.1]
  | [x], c, c1, hlen, h => by simp at hlen
  | x :: y :: rest, c, c1, hlen, h => by
    have hr : rest.length % 2 = 0 := by
      simp only [List.length_cons] at hlen; omega
    cases x with
    | vList xs => simp [mergeStep] at h
    | scalar s =>
      cases s with
      | sInt n => simp [mergeStep] at h
      | sFloat f => simp [mergeStep] at h
      | sBool b => simp [mergeStep] at h
      | sStr p =>
        simp only [mergeStep, List.cons_append] at h ⊢
        cases hset : c.set (splitPath p) y with
        | ok c' =>
          simp only [hset] at h ⊢
          exact mergeStep_append_ok l2 rest c' c1 hr h
        | error e => simp [hset] at h

theorem mergeStep_append_err (l2 : List Value) :
    ∀ (l1 : List Value) (c c1 : Config) (e : CfgError), l1.length % 2 = 0 →
      mergeStep c l1 = (c1, some e) → mergeStep c (l1 ++ l2) = (c1, some e)
  | [], c, c1, e, _, h => by simp [mergeStep] at h
  | [x], c, c1, e, hlen, h => by simp at hlen
  | x :: y :: rest, c, c1, e, hlen, h => by
    have hr : rest.length % 2 = 0 := by
      simp only [List.length_cons] at hlen; omega
    cases x with
    | vList xs =>
      simp only [mergeStep, Prod.mk.injEq, List.cons_append] at h ⊢
      exact h
    | scalar s =>
      cases s with
      | sInt n =>
        simp only [mergeStep, Prod.mk.injEq, List.cons_append] at h ⊢
        exact h
      | sFloat f =>
        simp only [mergeStep, Prod.mk.injEq, List.cons_append] at h ⊢
        exact h
      | sBool b =>
        simp only [mergeStep, Prod.mk.injEq, List.cons_append] at h ⊢
        exact h
      | sStr p =>
        simp only [mergeStep, List.cons_append] at h ⊢
        cases hset : c.set (splitPath p) y with
        | ok c' =>
          simp only [hset] at h ⊢
          exact mergeStep_append_err l2 rest c' c1 e hr h
        | error e' =>
          simp only [hset] at h ⊢
          exact h

theorem mergeStep_leafPaths :
    ∀ (l : List Value) (c : Config),
      (mergeStep c l).1.root.leafPaths = c.root.leafPaths
  | [], c => rfl
  | [x], c => by
    cases x with
    | vList xs => rfl
    | scalar s => cases s <;> rfl
  | x :: y :: rest, c => by
    cases x with
    | vList xs => rfl
    | scalar s =>
      cases s with
      | sInt n => rfl
      | sFloat f => rfl
      | sBool b => rfl
      | sStr p =>
        simp only [mergeStep]
        cases hset : c.set (splitPath p) y with
        | ok c' =>
          rw [mergeStep_leafPaths rest c', cfgSet_ok_leafPaths hset]
        | error e => rfl

theorem mergeStep_wfKeys :
    ∀ (l : List Value) (c : Config),
      (mergeStep c l).1.root.wfKeys = c.root.wfKeys
  | [], c => rfl
  | [x], c => by
    cases x with
    | vList xs => rfl
    | scalar s => cases s <;> rfl
  | x :: y :: rest, c => by
    cases x with
    | vList xs => rfl
    | scalar s =>
      cases s with
      | sInt n => rfl
      | sFloat f => rfl
      | sBool b => rfl
      | sStr p =>
        simp only [mergeStep]
        cases hset : c.set (splitPath p) y with
        | ok c' =>
          rw [mergeStep_wfKeys rest c', cfgSet_ok_wfKeys hset]
        | error e => rfl

theorem mergeStep_leafAt_notTarget :
    ∀ (l : List Value) (c : Config) (q : List String), q ∉ listTargets l →
      (mergeStep c l).1.root.leafAt q = c.root.leafAt q
  | [], c, q, _ => rfl
  | [x], c, q, _ => by
    cases x with
    | vList xs => rfl
    | scalar s => cases s <;> rfl
  | x :: y :: rest, c, q, hq => by
    cases x with
    | vList xs => exact rfl
    | scalar s =>
      cases s with
      | sInt n => exact rfl
      | sFloat f => exact rfl
      | sBool b => exact rfl
      | sStr p =>
        simp only [listTargets, List.mem_cons, not_or] at hq
        simp only [mergeStep]
        cases hset : c.set (splitPath p) y with
        | ok c' =>
          rw [mergeStep_leafAt_notTarget rest c' q hq.2,
            cfgSet_ok_leafAt_ne hset hq.1]
        | error e => rfl

theorem mergeFromList_ok_elim {c c' : Config} {l : List Value}
    (h : c.mergeFromList l = .ok c') :
    l.length % 2 = 0 ∧ mergeStep c l = (c', none) := by
  by_cases hodd : l.length % 2 = 1
  · simp [Config.mergeFromList, hodd] at h
  · refine ⟨by omega, ?_⟩
    simp only [Config.mergeFromList, hodd, if_false] at h
    cases hms : mergeStep c l with
    | mk c'' oe =>
      rw [hms] at h
      cases oe with
      | none =>
        simp only [Except.ok.injEq] at h
        rw [h]
      | some e => simp at h

theorem applyPairs_ok_leafPaths :
    ∀ (pvs : List (List String × Value)) (c c' : Config),
      applyPairs c pvs = .ok c' → c'.root.leafPaths = c.root.leafPaths
  | [], c, c', h => by
    simp only [applyPairs, Except.ok.injEq] at h
    rw [← h]
  | (p, v) :: rest, c, c', h => by
    simp only [applyPairs] at h
    cases hset : c.set p v with
    | error e => simp [hset] at h
    | ok c1 =>
      simp only [hset] at h
      rw [applyPairs_ok_leafPaths rest c1 c' h, cfgSet_ok_leafPaths hset]

theorem applyPairs_ok_wfKeys :
    ∀ (pvs : List (List String × Value)) (c c' : Config),
      applyPairs c pvs = .ok c' → c'.root.wfKeys = c.root.wfKeys
  | [], c, c', h => by
    simp only [applyPairs, Except.ok.injEq] at h
    rw [← h]
  | (p, v) :: rest, c, c', h => by
    simp only [applyPairs] at h
    cases hset : c.set p v with
    | error e => simp [hset] at h
    | ok c1 =>
      simp only [hset] at h
      rw [applyPairs_ok_wfKeys rest c1 c' h, cfgSet_ok_wfKeys hset]

theorem applyPairs_ok_leafAt_ne :
    ∀ (pvs : List (List String × Value)) (c c' : Config) (q : List String),
      applyPairs c pvs = .ok c' → (∀ pv ∈ pvs, pv.1 ≠ q) →
      c'.root.leafAt q = c.root.leafAt q
  | [], c, c', q, h, _ => by
    simp only [applyPairs, Except.ok.injEq] at h
    rw [← h]
  | (p, v) :: rest, c, c', q, h, hq => by
    simp only [applyPairs] at h
    cases hset : c.set p v with
    | error e => simp [hset] at h
    | ok c1 =>
      simp only [hset] at h
      rw [applyPairs_ok_leafAt_ne rest c1 c' q h (fun pv hpv => hq pv (by simp [hpv])),
        cfgSet_ok_leafAt_ne hset (fun hh => hq (p, v) (by simp) hh.symm)]

theorem mergeFromFile_ok_elim {c c' : Config} {src : CfgNode}
    (h : c.mergeFromFile src = .ok c') :
    unknownIn c.root src.srcLeaves = none ∧ applyPairs c src.srcLeaves = .ok c' := by
  cases hu : unknownIn c.root src.srcLeaves with
  | some k => simp [Config.mergeFromFile, hu] at h
  | none =>
    simp only [Config.mergeFromFile, hu] at h
    exact ⟨rfl, h⟩

theorem unknownIn_some_of_mem {t : CfgNode} {p : List String} {v : Value} {k0 : String} :
    ∀ pvs : List (List String × Value), (p, v) ∈ pvs → t.firstAbsent p = some k0 →
      ∃ k, unknownIn t pvs = some k
  | [], hmem, _ => by simp at hmem
  | (p', v') :: rest, hmem, habs => by
    cases hfa : t.firstAbsent p' with
    | some k' => exact ⟨k', by simp [unknownIn, hfa]⟩
    | none =>
      rcases List.mem_cons.mp hmem with heq | hmem'
      · rw [(Prod.mk.injEq .. ▸ heq : p = p' ∧ v = v').1] at habs
        rw [habs] at hfa
        cases hfa
      · obtain ⟨k, hk⟩ := unknownIn_some_of_mem rest hmem' habs
        exact ⟨k, by simp [unknownIn, hfa, hk]⟩

theorem build_ok_leafPaths {file : Option CfgNode} {ol : List Value} {c : Config}
    (h : Config.build file ol = .ok c) : c.root.leafPaths = defaultSchema.leafPaths := by
  simp only [Config.build, bind, Except.bind] at h
  cases file with
  | none =>
    cases hml : Config.mergeFromList ⟨defaultSchema, false⟩ ol with
    | error e => simp [hml] at h
    | ok c2 =>
      simp only [hml, Except.ok.injEq] at h
      obtain ⟨-, hms⟩ := mergeFromList_ok_elim hml
      have := mergeStep_leafPaths ol ⟨defaultSchema, false⟩
      rw [hms] at this
      rw [← h]
      exact this
  | some src =>
    cases hmf : Config.mergeFromFile ⟨defaultSchema, false⟩ src with
    | error e => simp [hmf] at h
    | ok c1 =>
      simp only [hmf] at h
      cases hml : c1.mergeFromList ol with
      | error e => simp [hml] at h
      | ok c2 =>
        simp only [hml, Except.ok.injEq] at h
        obtain ⟨-, happ⟩ := mergeFromFile_ok_elim hmf
        obtain ⟨-, hms⟩ := mergeFromList_ok_elim hml
        have h2 := mergeStep_leafPaths ol c1
        rw [hms] at h2
        rw [← h]
        have h1 := applyPairs_ok_leafPaths _ _ _ happ
        simp only [Config.freeze, addDerivedParams]
        rw [h2, h1]

theorem build_ok_wfKeys {file : Option CfgNode} {ol : List Value} {c : Config}
    (h : Config.build file ol = .ok c) : c.root.wfKeys = defaultSchema.wfKeys := by
  simp only [Config.build, bind, Except.bind] at h
  cases file with
  | none =>
    cases hml : Config.mergeFromList ⟨defaultSchema, false⟩ ol with
    | error e => simp [hml] at h
    | ok c2 =>
      simp only [hml, Except.ok.injEq] at h
      obtain ⟨-, hms⟩ := mergeFromList_ok_elim hml
      have := mergeStep_wfKeys ol ⟨defaultSchema, false⟩
      rw [hms] at this
      rw [← h]
      exact this
  | some src =>
    cases hmf : Config.mergeFromFile ⟨defaultSchema, false⟩ src with
    | error e => simp [hmf] at h
    | ok c1 =>
      simp only [hmf] at h
      cases hml : c1.mergeFromList ol with
      | error e => simp [hml] at h
      | ok c2 =>
        simp only [hml, Except.ok.injEq] at h
        obtain ⟨-, happ⟩ := mergeFromFile_ok_elim hmf
        obtain ⟨-, hms⟩ := mergeFromList_ok_elim hml
        have h2 := mergeStep_wfKeys ol c1
        rw [hms] at h2
        rw [← h]
        have h1 := applyPairs_ok_wfKeys _ _ _ happ
        simp only [Config.freeze, addDerivedParams]
        rw [h2, h1]

theorem splitSegs_ne_nil : ∀ cs : List Char, splitSegs cs ≠ []
  | [] => by simp [splitSegs]
  | c :: rest => by
    simp only [splitSegs]
    by_cases hc : c = '.'
    · simp [hc]
    · simp only [hc, if_false]
      cases splitSegs rest <;> simp

theorem splitPath_ne_nil (s : String) : splitPath s ≠ [] := by
  simp only [splitPath, ne_eq, List.map_eq_nil_iff]
  exact splitSegs_ne_nil s.data

theorem srcLeaves_srcSingleton (v : Value) :
    ∀ p : List String, (srcSingleton p v).srcLeaves = [(p, v)]
  | [] => by simp [srcSingleton, CfgNode.srcLeaves]
  | k :: rest => by
    simp [srcSingleton, CfgNode.srcLeaves, Entries.srcLeaves,
      srcLeaves_srcSingleton v rest]

theorem cfgSet_ok_of {c : Config} {p : List String} {d : Value} (v : Value)
    (hf : c.frozen = false) (hd : c.root.leafAt p = some d)
    (hc : d.typeCompatible v = true) (hp : p ≠ []) :
    ∃ c', c.set p v = .ok c' ∧ c'.frozen = false ∧ c'.root.leafAt p = some v ∧
      (∀ q, q ≠ p → c'.root.leafAt q = c.root.leafAt q) := by
  obtain ⟨t', ht'⟩ := setT_isOk v hd hc hp
  refine ⟨⟨t', false⟩, ?_, rfl, setT_ok_leafAt_self ht',
    fun q hq => setT_ok_leafAt_ne ht' hq⟩
  simp [Config.set, hf, ht', Except.map]

theorem mergeFromList_pair {c : Config} {s : String} {d : Value} (v : Value)
    (hf : c.frozen = false) (hd : c.root.leafAt (splitPath s) = some d)
    (hc : d.typeCompatible v = true) :
    ∃ c', c.mergeFromList [vS s, v] = .ok c' ∧ c'.frozen = false ∧
      c'.root.leafAt (splitPath s) = some v ∧
      (∀ q, q ≠ splitPath s → c'.root.leafAt q = c.root.leafAt q) := by
  obtain ⟨c', hset, hf', hread, hframe⟩ := cfgSet_ok_of v hf hd hc (splitPath_ne_nil s)
  exact ⟨c', by simp [Config.mergeFromList, mergeStep, vS, hset], hf', hread, hframe⟩

theorem mergeFromFile_singleton {c : Config} {p : List String} {d : Value} (f : Value)
    (hf : c.frozen = false) (hd : c.root.leafAt p = some d)
    (hc : d.typeCompatible f = true) (hp : p ≠ []) :
    ∃ c', c.mergeFromFile (srcSingleton p f) = .ok c' ∧ c'.frozen = false ∧
      c'.root.leafAt p = some f ∧
      (∀ q, q ≠ p → c'.root.leafAt q = c.root.leafAt q) := by
  obtain ⟨c', hset, hf', hread, hframe⟩ := cfgSet_ok_of f hf hd hc hp
  refine ⟨c', ?_, hf', hread, hframe⟩
  simp [Config.mergeFromFile, srcLeaves_srcSingleton, unknownIn,
    firstAbsent_of_leafAt hd, applyPairs, hset]

theorem build_none_of_mergeList {ol : List Value} {c2 : Config}
    (h : (Config.mk defaultSchema false).mergeFromList ol = .ok c2) :
    Config.build none ol = .ok ⟨c2.root, true⟩ := by
  simp [Config.build, bind, Except.bind, h, addDerivedParams, Config.freeze]

theorem build_some_of_merges {src : CfgNode} {ol : List Value} {c1 c2 : Config}
    (h1 : (Config.mk defaultSchema false).mergeFromFile src = .ok c1)
    (h2 : c1.mergeFromList ol = .ok c2) :
    Config.build (some src) ol = .ok ⟨c2.root, true⟩ := by
  simp [Config.build, bind, Except.bind, h1, h2, addDerivedParams, Config.freeze]

theorem build_none_err {ol : List Value} {e : CfgError}
    (h : (Config.mk defaultSchema false).mergeFromList ol = .error e) :
    Config.build none ol = .error e := by
  simp [Config.build, bind, Except.bind, h]

theorem build_some_err_file {src : CfgNode} {ol : List Value} {e : CfgError}
    (h : (Config.mk defaultSchema false).mergeFromFile src = .error e) :
    Config.build (some src) ol = .error e := by
  simp [Config.build, bind, Except.bind, h]

theorem build_ok_frame {file : Option CfgNode} {ol : List Value} {c : Config}
    {q : List String} (h : Config.build file ol = .ok c)
    (hfile : ∀ src, file = some src → ∀ pv ∈ src.srcLeaves, pv.1 ≠ q)
    (hlist : q ∉ listTargets ol) :
    c.root.leafAt q = defaultSchema.leafAt q := by
  simp only [Config.build, bind, Except.bind] at h
  cases file with
  | none =>
    cases hml : Config.mergeFromList ⟨defaultSchema, false⟩ ol with
    | error e => simp [hml] at h
    | ok c2 =>
      simp only [hml, Except.ok.injEq] at h
      obtain ⟨-, hms⟩ := mergeFromList_ok_elim hml
      have hfr := mergeStep_leafAt_notTarget ol ⟨defaultSchema, false⟩ q hlist
      rw [hms] at hfr
      rw [← h]
      exact hfr
  | some src =>
    cases hmf : Config.mergeFromFile ⟨defaultSchema, false⟩ src with
    | error e => simp [hmf] at h
    | ok c1 =>
      simp only [hmf] at h
      cases hml : c1.mergeFromList ol with
      | error e => simp [hml] at h
      | ok c2 =>
        simp only [hml, Except.ok.injEq] at h
        obtain ⟨-, happ⟩ := mergeFromFile_ok_elim hmf
        obtain ⟨-, hms⟩ := mergeFromList_ok_elim hml
        have h2 := mergeStep_leafAt_notTarget ol c1 q hlist
        rw [hms] at h2
        have h1 := applyPairs_ok_leafAt_ne _ _ _ q happ
          (fun pv hpv => hfile src rfl pv hpv)
        rw [← h]
        simp only [Config.freeze, addDerivedParams]
        rw [h2, h1]

theorem mergeFromList_nil (c : Config) : c.mergeFromList [] = .ok c := by
  simp [Config.mergeFromList, mergeStep]

theorem mergeFromList_pair_err {c : Config} {s : String} {v : Value} {e : CfgError}
    (hf : c.frozen = false) (hset : c.root.setT (splitPath s) v = .error e) :
    c.mergeFromList [vS s, v] = .error e := by
  simp [Config.mergeFromList, mergeStep, vS, Config.set, hf, hset, Except.map]

/-- C1 (override ordering): at a schema path with default `d`, if a file
override `f` and a list override `l` both target the path, the value read
after construction is `l`; with only the file override it is `f`; with
neither it is `d`.  The file layer is applied before the list layer in
`Config.build` (`config.py` lines 219-221). -/
theorem overrideOrdering_C1 :
    ∀ (s : String) (p : List String) (d f l : Value),
      splitPath s = p → defaultSchema.leafAt p = some d →
      d.typeCompatible f = true → d.typeCompatible l = true →
      (∃ c, Config.build (some (srcSingleton p f)) [vS s, l] = .ok c ∧
        c.root.leafAt p = some l) ∧
      (∃ c, Config.build (some (srcSingleton p f)) [] = .ok c ∧
        c.root.leafAt p = some f) ∧
      (∃ c, Config.build none [] = .ok c ∧ c.root.leafAt p = some d) := by
  intro s p d f l hs hd hcf hcl
  have hp : p ≠ [] := hs ▸ splitPath_ne_nil s
  obtain ⟨c1, hmf, hf1, hread1, -⟩ :=
    mergeFromFile_singleton (c := ⟨defaultSchema, false⟩) f rfl hd hcf hp
  refine ⟨?_, ?_, ?_⟩
  · obtain ⟨c2, hml, -, hread2, -⟩ :=
      mergeFromList_pair (c := c1) (s := s) l hf1 (by rw [hs]; exact hread1)
        (typeCompatible_trans hcf hcl)
    exact ⟨⟨c2.root, true⟩, build_some_of_merges hmf hml, by rw [← hs]; exact hread2⟩
  · exact ⟨⟨c1.root, true⟩, build_some_of_merges hmf (mergeFromList_nil c1), hread1⟩
  · exact ⟨⟨defaultSchema, true⟩,
      build_none_of_mergeList (mergeFromList_nil ⟨defaultSchema, false⟩), hd⟩

theorem overrideOrdering_C1_witness :
    (∃ c, Config.build (some (srcSingleton ["OPTIM", "BATCH_SIZE"] (vI 512)))
        [vS "OPTIM.BATCH_SIZE", vI 1024] = .ok c ∧
      c.root.leafAt ["OPTIM", "BATCH_SIZE"] = some (vI 1024)) ∧
    (∃ c, Config.build (some (srcSingleton ["OPTIM", "BATCH_SIZE"] (vI 512))) [] = .ok c ∧
      c.root.leafAt ["OPTIM", "BATCH_SIZE"] = some (vI 512)) ∧
    (∃ c, Config.build none [] = .ok c ∧
      c.root.leafAt ["OPTIM", "BATCH_SIZE"] = some (vI 256)) :=
  overrideOrdering_C1 "OPTIM.BATCH_SIZE" ["OPTIM", "BATCH_SIZE"]
    (vI 256) (vI 512) (vI 1024) (by decide) (by decide) (by decide) (by decide)

/-- C2 (post-freeze immutability): after `freeze`, every `set` — at any
path, in the schema or not — fails with `FrozenMutationError`; the freeze
check precedes the key-existence check, and since `set` reports the error
instead of returning an updated tree, no stored value changes. -/
theorem freezeImmutability_C2 :
    ∀ (c : Config) (p : List String) (v : Value),
      (c.freeze).set p v = .error .frozenMutation := by
  intro c p v
  rfl

/-- C3 (schema closure): setting a path whose walk meets an absent segment
always fails with `UnknownKeyError` (both at tree level and through an
unfrozen `Config`), so no override introduces a key, and every successful
construction yields exactly the leaf paths of the schema built by the
schema builder. -/
theorem schemaClosure_C3 :
    (∀ (t : CfgNode) (p : List String) (v : Value) (k : String),
      t.firstAbsent p = some k → t.setT p v = .error (.unknownKey k)) ∧
    (∀ (c : Config) (p : List String) (v : Value) (k : String),
      c.frozen = false → c.root.firstAbsent p = some k →
      c.set p v = .error (.unknownKey k)) ∧
    (∀ (file : Option CfgNode) (ol : List Value) (c : Config),
      Config.build file ol = .ok c → c.root.leafPaths = defaultSchema.leafPaths) := by
  refine ⟨fun t p v k h => setT_absent v h, ?_, fun file ol c h => build_ok_leafPaths h⟩
  intro c p v k hf habs
  simp [Config.set, hf, setT_absent v habs, Except.map]

theorem schemaClosure_C3_witness :
    defaultSchema.setT ["BAD", "PATH"] (vI 1) = .error (.unknownKey "BAD") :=
  schemaClosure_C3.1 defaultSchema ["BAD", "PATH"] (vI 1) "BAD" (by decide)

/-- C4 (merge-from-file atomicity): if the parsed file source declares any
leaf path that is absent from the schema, the whole file merge fails with
`UnknownKeyError` — `mergeFromFile` returns the error and produces no tree,
so no override from the file is committed — and construction fails
overall. -/
theorem mergeFromFileAtomicity_C4 :
    ∀ (src : CfgNode) (ol : List Value) (p : List String) (v : Value) (k0 : String),
      (p, v) ∈ src.srcLeaves → defaultSchema.firstAbsent p = some k0 →
      ∃ k, (Config.mk defaultSchema false).mergeFromFile src = .error (.unknownKey k) ∧
        Config.build (some src) ol = .error (.unknownKey k) := by
  intro src ol p v k0 hmem habs
  obtain ⟨k, hk⟩ := unknownIn_some_of_mem src.srcLeaves hmem habs
  exact ⟨k, by simp [Config.mergeFromFile, hk],
    build_some_err_file (by simp [Config.mergeFromFile, hk])⟩

theorem mergeFromFileAtomicity_C4_witness :
    ∃ k, (Config.mk defaultSchema false).mergeFromFile
        (srcSingleton ["BAD", "PATH"] (vI 1)) = .error (.unknownKey k) ∧
      Config.build (some (srcSingleton ["BAD", "PATH"] (vI 1))) [] =
        .error (.unknownKey k) :=
  mergeFromFileAtomicity_C4 (srcSingleton ["BAD", "PATH"] (vI 1)) []
    ["BAD", "PATH"] (vI 1) "BAD" (by decide) (by decide)

/-- C5 (type guard with numeric coercion): assigning a string via an
override to a path whose schema default is numeric fails construction with
`TypeMismatchError`, while assigning an integer to a float-typed path
succeeds and the assigned number is read back at that path. -/
theorem typeGuardCoercion_C5 :
    ∀ (s : String) (d : Value) (str : String) (n : Int) (fv : FloatVal),
      (defaultSchema.leafAt (splitPath s) = some d → d.isNum = true →
        ∃ k, Config.build none [vS s, vS str] = .error (.typeMismatch k)) ∧
      (defaultSchema.leafAt (splitPath s) = some (Value.scalar (.sFloat fv)) →
        ∃ c, Config.build none [vS s, vI n] = .ok c ∧
          c.root.leafAt (splitPath s) = some (vI n)) := by
  intro s d str n fv
  constructor
  · intro hd hnum
    simp only [Value.isNum, beq_iff_eq] at hnum
    have hcomp : d.typeCompatible (vS str) = false := by
      simp only [Value.typeCompatible]
      rw [hnum]
      rfl
    obtain ⟨k, hk⟩ :=
      setT_mismatch (t := defaultSchema) (vS str) hd hcomp (splitPath_ne_nil s)
    exact ⟨k, build_none_err (mergeFromList_pair_err rfl hk)⟩
  · intro hd
    obtain ⟨c', hml, -, hread, -⟩ :=
      mergeFromList_pair (c := ⟨defaultSchema, false⟩) (vI n) rfl hd rfl
    exact ⟨⟨c'.root, true⟩, build_none_of_mergeList hml, hread⟩

theorem typeGuardCoercion_C5_witness :
    (∃ k, Config.build none [vS "OPTIM.BATCH_SIZE", vS "huge"] =
      .error (.typeMismatch k)) ∧
    (∃ c, Config.build none [vS "OPTIM.LR", vI 2] = .ok c ∧
      c.root.leafAt (splitPath "OPTIM.LR") = some (vI 2)) :=
  ⟨(typeGuardCoercion_C5 "OPTIM.BATCH_SIZE" (vI 256) "huge" 0 ⟨0, 0⟩).1
      (by decide) (by decide),
    (typeGuardCoercion_C5 "OPTIM.LR" (vI 0) "" 2 ⟨1, 3⟩).2 (by decide)⟩

/-- C6 (odd-length override list): `merge_from_list` on an odd-length
override list fails with `MalformedOverrideError` before applying any pair
(it returns the error and no updated tree), and construction fails with the
same error. -/
theorem oddLengthOverrideList_C6 :
    ∀ (c : Config) (l : List Value), l.length % 2 = 1 →
      c.mergeFromList l = .error .malformedOverride ∧
      Config.build none l = .error .malformedOverride := by
  intro c l h
  exact ⟨by simp [Config.mergeFromList, h],
    build_none_err (by simp [Config.mergeFromList, h])⟩

theorem oddLengthOverrideList_C6_witness :
    (Config.mk defaultSchema false).mergeFromList
        [vS "OPTIM.LR", vF 1 2, vS "OPTIM.BATCH_SIZE"] = .error .malformedOverride ∧
      Config.build none [vS "OPTIM.LR", vF 1 2, vS "OPTIM.BATCH_SIZE"] =
        .error .malformedOverride :=
  oddLengthOverrideList_C6 ⟨defaultSchema, false⟩
    [vS "OPTIM.LR", vF 1 2, vS "OPTIM.BATCH_SIZE"] (by decide)

/-- C7 (merge-from-list partial application): pairs are processed strictly
in sequence — after an even prefix succeeds, processing continues from the
reached tree; when a pair fails, the remaining pairs are not applied, the
error is surfaced through `merge_from_list`, and the tree reached by the
earlier pairs is kept.  Concretely, for
`["OPTIM.BATCH_SIZE", 1024, "BAD.PATH", 1]` the first pair is applied,
the second raises `UnknownKeyError`, and construction fails overall. -/
theorem mergeFromListSequential_C7 :
    (∀ (l1 l2 : List Value) (c c1 : Config), l1.length % 2 = 0 →
      mergeStep c l1 = (c1, none) → mergeStep c (l1 ++ l2) = mergeStep c1 l2) ∧
    (∀ (l1 l2 : List Value) (c c1 : Config) (e : CfgError), l1.length % 2 = 0 →
      l2.length % 2 = 0 → mergeStep c l1 = (c1, some e) →
      mergeStep c (l1 ++ l2) = (c1, some e) ∧
      c.mergeFromList (l1 ++ l2) = .error e) ∧
    ((mergeStep ⟨defaultSchema, false⟩
        [vS "OPTIM.BATCH_SIZE", vI 1024, vS "BAD.PATH", vI 1]).2 =
          some (.unknownKey "BAD") ∧
      (mergeStep ⟨defaultSchema, false⟩
        [vS "OPTIM.BATCH_SIZE", vI 1024, vS "BAD.PATH", vI 1]).1.root.leafAt
          ["OPTIM", "BATCH_SIZE"] = some (vI 1024) ∧
      Config.build none [vS "OPTIM.BATCH_SIZE", vI 1024, vS "BAD.PATH", vI 1] =
        .error (.unknownKey "BAD")) := by
  refine ⟨fun l1 l2 => mergeStep_append_ok l2 l1, ?_, by decide, by decide, by decide⟩
  intro l1 l2 c c1 e h1 h2 hstep
  have hms := mergeStep_append_err l2 l1 c c1 e h1 hstep
  have hodd : ¬((l1 ++ l2).length % 2 = 1) := by
    simp only [List.length_append]
    omega
  refine ⟨hms, ?_⟩
  simp only [Config.mergeFromList]
  rw [if_neg hodd, hms]

theorem mergeFromListSequential_C7_witness :
    mergeStep ⟨defaultSchema, false⟩
        ([vS "BAD.PATH", vI 1] ++ [vS "OPTIM.LR", vF 1 2]) =
      (⟨defaultSchema, false⟩, some (.unknownKey "BAD")) ∧
    (Config.mk defaultSchema false).mergeFromList
        ([vS "BAD.PATH", vI 1] ++ [vS "OPTIM.LR", vF 1 2]) =
      .error (.unknownKey "BAD") :=
  mergeFromListSequential_C7.2.1 [vS "BAD.PATH", vI 1] [vS "OPTIM.LR", vF 1 2]
    ⟨defaultSchema, false⟩ ⟨defaultSchema, false⟩ (.unknownKey "BAD")
    (by decide) (by decide) (by decide)

/-- C8 (list last-write-wins): for a schema path and two values both
type-compatible with its default, the override list `[p, v1, p, v2]` leaves
`v2` as the value read at the path after construction. -/
theorem listLastWriteWins_C8 :
    ∀ (s : String) (d v1 v2 : Value),
      defaultSchema.leafAt (splitPath s) = some d →
      d.typeCompatible v1 = true → d.typeCompatible v2 = true →
      ∃ c, Config.build none [vS s, v1, vS s, v2] = .ok c ∧
        c.root.leafAt (splitPath s) = some v2 := by
  intro s d v1 v2 hd h1 h2
  obtain ⟨c1, hset1, hf1, hread1, -⟩ :=
    cfgSet_ok_of (c := ⟨defaultSchema, false⟩) v1 rfl hd h1 (splitPath_ne_nil s)
  obtain ⟨c2, hset2, -, hread2, -⟩ :=
    cfgSet_ok_of (c := c1) v2 hf1 hread1 (typeCompatible_trans h1 h2)
      (splitPath_ne_nil s)
  refine ⟨⟨c2.root, true⟩, build_none_of_mergeList ?_, hread2⟩
  simp [Config.mergeFromList, mergeStep, vS, hset1, hset2]

theorem listLastWriteWins_C8_witness :
    ∃ c, Config.build none
        [vS "OPTIM.BATCH_SIZE", vI 512, vS "OPTIM.BATCH_SIZE", vI 1024] = .ok c ∧
      c.root.leafAt (splitPath "OPTIM.BATCH_SIZE") = some (vI 1024) :=
  listLastWriteWins_C8 "OPTIM.BATCH_SIZE" (vI 256) (vI 512) (vI 1024)
    (by decide) (by decide) (by decide)

/-- C10 (default-time coupling only): `MODEL.DECODER.MAX_DECODING_STEPS` is
initialised by copying the schema default of `DATA.MAX_CAPTION_LENGTH`
(both read `maxCaptionLengthDefault`, the copied value 30); after schema
construction the two parameters are independent — any construction whose
file and list layers do not target `MODEL.DECODER.MAX_DECODING_STEPS`
leaves it at 30, in particular when `DATA.MAX_CAPTION_LENGTH` is
overridden. -/
theorem decodingStepsDefaultCoupling_C10 :
    (defaultSchema.leafAt ["DATA", "MAX_CAPTION_LENGTH"] = some maxCaptionLengthDefault ∧
      defaultSchema.leafAt ["MODEL", "DECODER", "MAX_DECODING_STEPS"] =
        some maxCaptionLengthDefault) ∧
    (∀ (file : Option CfgNode) (ol : List Value) (c : Config),
      Config.build file ol = .ok c →
      (∀ src, file = some src → ∀ pv ∈ src.srcLeaves,
        pv.1 ≠ ["MODEL", "DECODER", "MAX_DECODING_STEPS"]) →
      ["MODEL", "DECODER", "MAX_DECODING_STEPS"] ∉ listTargets ol →
      c.root.leafAt ["MODEL", "DECODER", "MAX_DECODING_STEPS"] = some (vI 30)) ∧
    (∃ c, Config.build none [vS "DATA.MAX_CAPTION_LENGTH", vI 50] = .ok c ∧
      c.root.leafAt ["DATA", "MAX_CAPTION_LENGTH"] = some (vI 50) ∧
      c.root.leafAt ["MODEL", "DECODER", "MAX_DECODING_STEPS"] = some (vI 30)) := by
  refine ⟨⟨by decide, by decide⟩, ?_, ?_⟩
  · intro file ol c h hfile hlist
    rw [build_ok_frame h hfile hlist]
    decide
  · obtain ⟨c', hml, -, hread, hframe⟩ :=
      mergeFromList_pair (c := ⟨defaultSchema, false⟩)
        (s := "DATA.MAX_CAPTION_LENGTH") (d := vI 30) (vI 50) rfl (by decide) (by decide)
    refine ⟨⟨c'.root, true⟩, build_none_of_mergeList hml, ?_, ?_⟩
    · have : splitPath "DATA.MAX_CAPTION_LENGTH" = ["DATA", "MAX_CAPTION_LENGTH"] := by
        decide
      rw [← this]
      exact hread
    · rw [hframe ["MODEL", "DECODER", "MAX_DECODING_STEPS"] (by decide)]
      decide

theorem decodingStepsDefaultCoupling_C10_witness :
    (Config.mk defaultSchema true).root.leafAt
      ["MODEL", "DECODER", "MAX_DECODING_STEPS"] = some (vI 30) :=
  decodingStepsDefaultCoupling_C10.2.1 none [] ⟨defaultSchema, true⟩
    (by decide) (fun src h => by cases h) (by decide)

theorem digitCh_isDigit {d : Nat} (h : d < 10) : (digitCh d).isDigit = true := by
  interval_cases d <;> decide

theorem digitCh_toNat {d : Nat} (h : d < 10) : (digitCh d).toNat - 48 = d := by
  interval_cases d <;> decide

theorem natVal_append_last (xs : List Char) (c : Char) :
    natVal (xs ++ [c]) = natVal xs * 10 + (c.toNat - 48) := by
  simp [natVal, List.foldl_append]

theorem natDigitsF_spec : ∀ (fuel n : Nat), 0 < fuel → n < 10 ^ fuel →
    natVal (natDigitsF fuel n) = n ∧ natDigitsF fuel n ≠ [] ∧
      ∀ c ∈ natDigitsF fuel n, c.isDigit = true := by
  intro fuel
  induction fuel with
  | zero => intro n h; omega
  | succ fuel ih =>
    intro n _ hlt
    by_cases h10 : n < 10
    · refine ⟨?_, by simp [natDigitsF, h10], ?_⟩
      · simp [natDigitsF, h10, natVal, digitCh_toNat h10]
      · intro c hc
        simp only [natDigitsF, h10, if_true, List.mem_singleton] at hc
        rw [hc]
        exact digitCh_isDigit h10
    · have hfuel : 0 < fuel := by
        rcases Nat.eq_zero_or_pos fuel with h0 | h0
        · subst h0; simp at hlt; omega
        · exact h0
      have hdiv : n / 10 < 10 ^ fuel := by
        rw [Nat.div_lt_iff_lt_mul (by norm_num)]
        calc n < 10 ^ (fuel + 1) := hlt
          _ = 10 ^ fuel * 10 := by ring
      obtain ⟨ih1, ih2, ih3⟩ := ih (n / 10) hfuel hdiv
      have hmod : n % 10 < 10 := Nat.mod_lt n (by norm_num)
      refine ⟨?_, by simp [natDigitsF, h10], ?_⟩
      · simp only [natDigitsF, h10, if_false]
        rw [natVal_append_last, ih1, digitCh_toNat hmod]
        omega
      · intro c hc
        simp only [natDigitsF, h10, if_false, List.mem_append, List.mem_singleton] at hc
        rcases hc with hc | hc
        · exact ih3 c hc
        · rw [hc]; exact digitCh_isDigit hmod

theorem natDigits_spec (n : Nat) :
    natVal (natDigits n) = n ∧ natDigits n ≠ [] ∧
      ∀ c ∈ natDigits n, c.isDigit = true :=
  natDigitsF_spec (n + 1) n (Nat.succ_pos n)
    (lt_of_lt_of_le (Nat.lt_pow_self (by norm_num) n)
      (Nat.pow_le_pow_right (by norm_num) (Nat.le_succ n)))

theorem takeWhile_append_all {p : Char → Bool} :
    ∀ (xs rest : List Char), (∀ c ∈ xs, p c = true) →
      (∀ c, rest.head? = some c → p c = false) →
      (xs ++ rest).takeWhile p = xs ∧ (xs ++ rest).dropWhile p = rest
  | [], rest, _, hrest => by
    cases rest with
    | nil => simp
    | cons c tl =>
      have hc := hrest c rfl
      simp [List.takeWhile, List.dropWhile, hc]
  | x :: xs, rest, hxs, hrest => by
    have hx := hxs x (by simp)
    have ih := takeWhile_append_all xs rest (fun c hc => hxs c (by simp [hc])) hrest
    simp [List.takeWhile, List.dropWhile, hx, ih.1, ih.2]

theorem natVal_replicate_zero (k : Nat) (l : List Char) :
    natVal (List.replicate k '0' ++ l) = natVal l := by
  induction k with
  | zero => rfl
  | succ k ih =>
    have : List.replicate (k + 1) '0' ++ l = '0' :: (List.replicate k '0' ++ l) := by
      simp [List.replicate_succ]
    rw [this]
    simp only [natVal, List.foldl_cons] at ih ⊢
    convert ih using 2

theorem ne_of_isDigit {c d : Char} (h : c.isDigit = true) (hd : d.isDigit = false) :
    c ≠ d := by
  intro heq
  subst heq
  rw [h] at hd
  cases hd

theorem parseStringBody_escape : ∀ (l rest : List Char),
    parseStringBody (escapeChars l ++ '"' :: rest) = some (l, rest)
  | [], rest => by
    simp only [escapeChars, List.nil_append]
    rw [parseStringBody.eq_def]
    rfl
  | c :: l, rest => by
    by_cases hc : c = '\\' ∨ c = '"'
    · simp only [escapeChars, if_pos hc, List.cons_append]
      rw [parseStringBody.eq_def]
      simp only [reduceIte]
      rw [parseStringBody_escape l rest]
    · push_neg at hc
      simp only [escapeChars, if_neg (not_or.mpr ⟨hc.1, hc.2⟩), List.cons_append]
      rw [parseStringBody.eq_def]
      simp only [if_neg hc.1, if_neg hc.2]
      rw [parseStringBody_escape l rest]

theorem parseUnsigned_int (m : Nat) (rest : List Char)
    (hstop : ∀ c, rest.head? = some c → c.isDigit = false ∧ c ≠ '.') :
    parseUnsigned (natDigits m ++ rest) = some (.intg m, rest) := by
  obtain ⟨hval, hne, hdig⟩ := natDigits_spec m
  obtain ⟨ht, hd⟩ :=
    takeWhile_append_all (natDigits m) rest hdig (fun c hc => (hstop c hc).1)
  simp only [parseUnsigned, ht, hd, if_neg hne]
  cases rest with
  | nil => simp [hval]
  | cons c tl =>
    have hc := hstop c rfl
    simp [hc.2, hval]

theorem pd_digits (m e : Nat) :
    ∀ c ∈ List.replicate (e + 1 - (natDigits m).length) '0' ++ natDigits m,
      c.isDigit = true := by
  intro c hc
  rcases List.mem_append.mp hc with hrep | hds
  · rw [List.eq_of_mem_replicate hrep]
    decide
  · exact (natDigits_spec m).2.2 c hds

theorem pd_length (m e : Nat) :
    e + 1 ≤ (List.replicate (e + 1 - (natDigits m).length) '0' ++ natDigits m).length := by
  have hne := (natDigits_spec m).2.1
  have hpos : 1 ≤ (natDigits m).length := by
    cases hd : natDigits m with
    | nil => exact absurd hd hne
    | cons a b => simp
  simp only [List.length_append, List.length_replicate]
  omega

theorem dumpNatFloat_eq (m e : Nat) :
    dumpNatFloat m e =
      (List.replicate (e + 1 - (natDigits m).length) '0' ++ natDigits m).take
        ((List.replicate (e + 1 - (natDigits m).length) '0' ++ natDigits m).length - e) ++
      '.' ::
      (List.replicate (e + 1 - (natDigits m).length) '0' ++ natDigits m).drop
        ((List.replicate (e + 1 - (natDigits m).length) '0' ++ natDigits m).length - e) :=
  rfl

theorem parseUnsigned_flt (m e : Nat) (rest : List Char)
    (hstop : ∀ c, rest.head? = some c → c.isDigit = false ∧ c ≠ '.') :
    parseUnsigned (dumpNatFloat m e ++ rest) = some (.flt m e, rest) := by
  have hdig := pd_digits m e
  have hlen := pd_length m e
  set pd := List.replicate (e + 1 - (natDigits m).length) '0' ++ natDigits m with hpd
  have hvalpd : natVal pd = m := by
    rw [hpd, natVal_replicate_zero]
    exact (natDigits_spec m).1
  have hiplen : (pd.take (pd.length - e)).length = pd.length - e := by
    rw [List.length_take]
    omega
  have hfplen : (pd.drop (pd.length - e)).length = e := by
    rw [List.length_drop]
    omega
  have hipne : pd.take (pd.length - e) ≠ [] := by
    intro hh
    rw [hh] at hiplen
    simp at hiplen
    omega
  have hipdig : ∀ c ∈ pd.take (pd.length - e), c.isDigit = true :=
    fun c hc => hdig c (List.take_subset _ _ hc)
  have hfpdig : ∀ c ∈ pd.drop (pd.length - e), c.isDigit = true :=
    fun c hc => hdig c (List.drop_subset _ _ hc)
  have hinput : dumpNatFloat m e ++ rest =
      pd.take (pd.length - e) ++ '.' :: (pd.drop (pd.length - e) ++ rest) := by
    rw [dumpNatFloat_eq m e]
    simp [hpd]
  rw [hinput]
  obtain ⟨ht1, hd1⟩ := takeWhile_append_all (pd.take (pd.length - e))
    ('.' :: (pd.drop (pd.length - e) ++ rest)) hipdig (by intro c hc; simp at hc; rw [← hc]; decide)
  obtain ⟨ht2, hd2⟩ := takeWhile_append_all (pd.drop (pd.length - e)) rest hfpdig
    (fun c hc => (hstop c hc).1)
  simp only [parseUnsigned, ht1, hd1, if_neg hipne, ht2, hd2]
  have hv : natVal (pd.take (pd.length - e) ++ pd.drop (pd.length - e)) = m := by
    rw [List.take_append_drop, hvalpd]
  simp [hv, hfplen, hvalpd]

theorem natDigits_shape (m : Nat) : ∃ c tl, natDigits m = c :: tl ∧ c.isDigit = true := by
  obtain ⟨-, hne, hdig⟩ := natDigits_spec m
  cases hd : natDigits m with
  | nil => exact absurd hd hne
  | cons c tl => exact ⟨c, tl, rfl, hdig c (by rw [hd]; simp)⟩

theorem dumpNatFloat_shape (m e : Nat) :
    ∃ c tl, dumpNatFloat m e = c :: tl ∧ c.isDigit = true := by
  have hdig := pd_digits m e
  have hlen := pd_length m e
  set pd := List.replicate (e + 1 - (natDigits m).length) '0' ++ natDigits m with hpd
  have hiplen : (pd.take (pd.length - e)).length = pd.length - e := by
    rw [List.length_take]
    omega
  cases hip : pd.take (pd.length - e) with
  | nil =>
    rw [hip] at hiplen
    simp only [List.length_nil] at hiplen
    omega
  | cons c tl =>
    refine ⟨c, tl ++ '.' :: pd.drop (pd.length - e), ?_, ?_⟩
    · rw [dumpNatFloat_eq m e, ← hpd, hip]
      simp
    · exact hdig c (List.take_subset _ _ (by rw [hip]; simp))

theorem dumpScalar_shape (s : Scalar) :
    ∃ c tl, s.dumpScalar = c :: tl ∧
      (c.isDigit = true ∨ c = '-' ∨ c = 't' ∨ c = 'f' ∨ c = '"') := by
  cases s with
  | sInt n =>
    cases n with
    | ofNat m =>
      obtain ⟨c, tl, hd, hdig⟩ := natDigits_shape m
      exact ⟨c, tl, by simp [Scalar.dumpScalar, dumpInt, hd], Or.inl hdig⟩
    | negSucc m =>
      exact ⟨'-', natDigits (m + 1), by simp [Scalar.dumpScalar, dumpInt], by simp⟩
  | sFloat f =>
    rcases f with ⟨mant, e⟩
    cases mant with
    | ofNat m =>
      obtain ⟨c, tl, hd, hdig⟩ := dumpNatFloat_shape m e
      exact ⟨c, tl, by simp [Scalar.dumpScalar, dumpFloat, hd], Or.inl hdig⟩
    | negSucc m =>
      exact ⟨'-', dumpNatFloat (m + 1) e, by simp [Scalar.dumpScalar, dumpFloat], by simp⟩
  | sBool b =>
    cases b with
    | false => exact ⟨'f', ['a', 'l', 's', 'e'], rfl, by simp⟩
    | true => exact ⟨'t', ['r', 'u', 'e'], rfl, by simp⟩
  | sStr str => exact ⟨'"', escapeChars str.data ++ ['"'], rfl, by simp⟩

theorem parseScalar_dump (s : Scalar) (rest : List Char)
    (hstop : ∀ c, rest.head? = some c → c.isDigit = false ∧ c ≠ '.') :
    parseScalar (s.dumpScalar ++ rest) = some (s, rest) := by
  cases s with
  | sBool b =>
    cases b with
    | false =>
      rw [show Scalar.dumpScalar (.sBool false) ++ rest =
        'f' :: 'a' :: 'l' :: 's' :: 'e' :: rest from rfl]
      rw [parseScalar.eq_def]
      simp
    | true =>
      rw [show Scalar.dumpScalar (.sBool true) ++ rest =
        't' :: 'r' :: 'u' :: 'e' :: rest from rfl]
      rw [parseScalar.eq_def]
      simp
  | sStr str =>
    rw [show Scalar.dumpScalar (.sStr str) ++ rest =
      '"' :: (escapeChars str.data ++ '"' :: rest) from by simp [Scalar.dumpScalar]]
    rw [parseScalar.eq_def]
    simp [parseStringBody_escape]
  | sInt n =>
    cases n with
    | ofNat m =>
      obtain ⟨c, tl, hd, hdig⟩ := natDigits_shape m
      have hne_t : c ≠ 't' := ne_of_isDigit hdig (by decide)
      have hne_f : c ≠ 'f' := ne_of_isDigit hdig (by decide)
      have hne_q : c ≠ '"' := ne_of_isDigit hdig (by decide)
      have hne_m : c ≠ '-' := ne_of_isDigit hdig (by decide)
      rw [show Scalar.dumpScalar (.sInt (Int.ofNat m)) ++ rest = c :: (tl ++ rest) from by
        simp [Scalar.dumpScalar, dumpInt, hd]]
      rw [parseScalar.eq_def]
      simp only [if_neg hne_t, if_neg hne_f, if_neg hne_q, if_neg hne_m]
      rw [← List.cons_append, ← hd, parseUnsigned_int m rest hstop]
      rfl
    | negSucc m =>
      rw [show Scalar.dumpScalar (.sInt (Int.negSucc m)) ++ rest =
        '-' :: (natDigits (m + 1) ++ rest) from by simp [Scalar.dumpScalar, dumpInt]]
      rw [parseScalar.eq_def]
      simp only [reduceIte]
      rw [parseUnsigned_int (m + 1) rest hstop]
      simp only [applySign, Int.negSucc_eq]
      rw [if_neg (show ¬('-' = 't') from by decide), if_neg (show ¬('-' = 'f') from by decide),
        if_neg (show ¬('-' = '"') from by decide)]
      simp only [Option.some.injEq, Prod.mk.injEq, Scalar.sInt.injEq, and_true,
        Int.ofNat_eq_natCast]
      omega
  | sFloat f =>
    rcases f with ⟨mant, e⟩
    cases mant with
    | ofNat m =>
      obtain ⟨c, tl, hd, hdig⟩ := dumpNatFloat_shape m e
      have hne_t : c ≠ 't' := ne_of_isDigit hdig (by decide)
      have hne_f : c ≠ 'f' := ne_of_isDigit hdig (by decide)
      have hne_q : c ≠ '"' := ne_of_isDigit hdig (by decide)
      have hne_m : c ≠ '-' := ne_of_isDigit hdig (by decide)
      rw [show Scalar.dumpScalar (.sFloat ⟨Int.ofNat m, e⟩) ++ rest = c :: (tl ++ rest) from by
        simp [Scalar.dumpScalar, dumpFloat, hd]]
      rw [parseScalar.eq_def]
      simp only [if_neg hne_t, if_neg hne_f, if_neg hne_q, if_neg hne_m]
      rw [← List.cons_append, ← hd, parseUnsigned_flt m e rest hstop]
      rfl
    | negSucc m =>
      rw [show Scalar.dumpScalar (.sFloat ⟨Int.negSucc m, e⟩) ++ rest =
        '-' :: (dumpNatFloat (m + 1) e ++ rest) from by simp [Scalar.dumpScalar, dumpFloat]]
      rw [parseScalar.eq_def]
      simp only [reduceIte]
      rw [parseUnsigned_flt (m + 1) e rest hstop]
      simp only [applySign, Int.negSucc_eq]
      rw [if_neg (show ¬('-' = 't') from by decide), if_neg (show ¬('-' = 'f') from by decide),
        if_neg (show ¬('-' = '"') from by decide)]
      simp only [Option.some.injEq, Prod.mk.injEq, Scalar.sFloat.injEq,
        FloatVal.mk.injEq, and_true, Int.ofNat_eq_natCast]
      omega

theorem dumpScalars_length (xs : List Scalar) : xs.length ≤ (dumpScalars xs).length := by
  induction xs with
  | nil => simp [dumpScalars]
  | cons x xs ih =>
    obtain ⟨c, tl, hd, -⟩ := dumpScalar_shape x
    simp only [dumpScalars, hd, List.length_append, List.length_cons]
    omega

theorem parseScalarsF_dump : ∀ (xs : List Scalar) (rest : List Char) (fuel : Nat),
    xs.length < fuel →
    parseScalarsF fuel (dumpScalars xs ++ ']' :: rest) = some (xs, rest)
  | [], rest, fuel, hf => by
    cases fuel with
    | zero => omega
    | succ f =>
      rw [show dumpScalars [] ++ ']' :: rest = ']' :: rest from rfl]
      rw [parseScalarsF.eq_def]
      simp
  | x :: xs, rest, fuel, hf => by
    cases fuel with
    | zero => omega
    | succ f =>
      obtain ⟨c, tl, hd, hhead⟩ := dumpScalar_shape x
      have hne : c ≠ ']' := by
        rcases hhead with h | h | h | h | h
        · exact ne_of_isDigit h (by decide)
        all_goals (rw [h]; decide)
      rw [show dumpScalars (x :: xs) ++ ']' :: rest =
        c :: (tl ++ ',' :: (dumpScalars xs ++ ']' :: rest)) from by simp [dumpScalars, hd]]
      rw [parseScalarsF.eq_def]
      simp only [if_neg hne]
      rw [← List.cons_append, ← hd]
      rw [parseScalar_dump x (',' :: (dumpScalars xs ++ ']' :: rest))
        (by intro cc hcc; simp only [List.head?_cons, Option.some.injEq] at hcc
            rw [← hcc]; decide)]
      have hxs : xs.length < f := by
        simp only [List.length_cons] at hf
        omega
      simp [parseScalarsF_dump xs rest f hxs]

theorem parseValue_dump (v : Value) (rest : List Char)
    (hstop : ∀ c, rest.head? = some c → c.isDigit = false ∧ c ≠ '.') :
    parseValueChars (v.dumpValue ++ rest) = some (v, rest) := by
  cases v with
  | scalar s =>
    obtain ⟨c, tl, hd, hhead⟩ := dumpScalar_shape s
    have hne : c ≠ '[' := by
      rcases hhead with h | h | h | h | h
      · exact ne_of_isDigit h (by decide)
      all_goals (rw [h]; decide)
    rw [show Value.dumpValue (.scalar s) ++ rest = c :: (tl ++ rest) from by
      simp [Value.dumpValue, hd]]
    rw [parseValueChars.eq_def]
    simp only [if_neg hne]
    rw [← List.cons_append, ← hd, parseScalar_dump s rest hstop]
  | vList xs =>
    rw [show Value.dumpValue (.vList xs) ++ rest =
      '[' :: (dumpScalars xs ++ ']' :: rest) from by simp [Value.dumpValue]]
    rw [parseValueChars.eq_def]
    simp only [reduceIte]
    have hlen : xs.length < (dumpScalars xs ++ ']' :: rest).length + 1 := by
      have := dumpScalars_length xs
      simp only [List.length_append, List.length_cons]
      omega
    rw [parseScalarsF_dump xs rest _ hlen]

theorem dumpValue_shape (v : Value) : ∃ c tl, v.dumpValue = c :: tl ∧ c ≠ '(' := by
  cases v with
  | scalar s =>
    obtain ⟨c, tl, hd, hhead⟩ := dumpScalar_shape s
    refine ⟨c, tl, by simp [Value.dumpValue, hd], ?_⟩
    rcases hhead with h | h | h | h | h
    · exact ne_of_isDigit h (by decide)
    all_goals (rw [h]; decide)
  | vList xs => exact ⟨'[', dumpScalars xs ++ [']'], rfl, by decide⟩

theorem keyOk_elim {k : String} (h : keyOk k = true) :
    k.data ≠ [] ∧ ∀ c ∈ k.data, keyCharOk c = true := by
  constructor
  · intro hnil
    rw [keyOk, hnil] at h
    simp at h
  · intro c hc
    rw [keyOk, Bool.and_eq_true, List.all_eq_true] at h
    exact h.2 c hc

theorem psizeT_pos (t : CfgNode) : 1 ≤ t.psize := by
  cases t with
  | leaf v => simp [CfgNode.psize]
  | node es => simp only [CfgNode.psize]; omega

theorem psizeE_pos (es : Entries) : 1 ≤ es.psize := by
  cases es with
  | nil => simp [Entries.psize]
  | cons k c rest => simp only [Entries.psize]; omega

theorem parseEntriesF_key_step (f : Nat) (k : List Char) (rem : List Char)
    (hk : k ≠ []) (hkc : ∀ c ∈ k, keyCharOk c = true) :
    parseEntriesF (f + 1) (k ++ '=' :: rem) =
      match parseTreeF f rem with
      | none => none
      | some (child, r2) =>
        match r2 with
        | ';' :: r3 =>
          match parseEntriesF f r3 with
          | none => none
          | some (es, r) => some (.cons (String.mk k) child es, r)
        | _ => none := by
  cases k with
  | nil => exact absurd rfl hk
  | cons kc ktl =>
    have hkch : keyCharOk kc = true := hkc kc (by simp)
    have hne : kc ≠ ')' := by
      intro hh
      rw [hh] at hkch
      exact absurd hkch (by decide)
    obtain ⟨ht, hd⟩ := takeWhile_append_all (kc :: ktl) ('=' :: rem) hkc
      (by intro cc hcc
          simp only [List.head?_cons, Option.some.injEq] at hcc
          rw [← hcc]; decide)
    rw [List.cons_append] at ht hd ⊢
    rw [parseEntriesF.eq_def]
    simp only [ht, hd, if_neg hne]
    simp

mutual
theorem parseTreeF_dump : ∀ (t : CfgNode) (rest : List Char) (fuel : Nat),
    t.psize ≤ fuel → t.wfKeys = true →
    (∀ c, rest.head? = some c → c.isDigit = false ∧ c ≠ '.') →
    parseTreeF fuel (t.dumpChars ++ rest) = some (t, rest)
  | .leaf v, rest, fuel, hfuel, _, hstop => by
    cases fuel with
    | zero => exact absurd (le_trans (psizeT_pos _) hfuel) (by norm_num)
    | succ f =>
      obtain ⟨c, tl, hdv, hne⟩ := dumpValue_shape v
      rw [show CfgNode.dumpChars (.leaf v) ++ rest = c :: (tl ++ rest) from by
        simp [CfgNode.dumpChars, hdv]]
      rw [parseTreeF.eq_def]
      simp only [if_neg hne]
      rw [← List.cons_append, ← hdv, parseValue_dump v rest hstop]
  | .node es, rest, fuel, hfuel, hwf, _ => by
    cases fuel with
    | zero => exact absurd (le_trans (psizeT_pos _) hfuel) (by norm_num)
    | succ f =>
      rw [show CfgNode.dumpChars (.node es) ++ rest =
        '(' :: (Entries.dumpChars es ++ ')' :: rest) from by simp [CfgNode.dumpChars]]
      rw [parseTreeF.eq_def]
      have hes : es.psize ≤ f := by
        simp only [CfgNode.psize] at hfuel
        omega
      have hesw : es.wfKeys = true := by
        simpa [CfgNode.wfKeys] using hwf
      simp [parseEntriesF_dump es rest f hes hesw]
termination_by structural t => t

theorem parseEntriesF_dump : ∀ (es : Entries) (rest : List Char) (fuel : Nat),
    es.psize ≤ fuel → es.wfKeys = true →
    parseEntriesF fuel (es.dumpChars ++ ')' :: rest) = some (es, rest)
  | .nil, rest, fuel, hfuel, _ => by
    cases fuel with
    | zero => exact absurd (le_trans (psizeE_pos _) hfuel) (by norm_num)
    | succ f =>
      rw [show Entries.dumpChars .nil ++ ')' :: rest = ')' :: rest from rfl]
      rw [parseEntriesF.eq_def]
      simp
  | .cons k c restE, rest, fuel, hfuel, hwf => by
    cases fuel with
    | zero => exact absurd (le_trans (psizeE_pos _) hfuel) (by norm_num)
    | succ f =>
      have hw : keyOk k = true ∧ c.wfKeys = true ∧ restE.wfKeys = true := by
        simpa [Entries.wfKeys, Bool.and_eq_true, and_assoc] using hwf
      obtain ⟨hkO, hcw, hrw⟩ := hw
      obtain ⟨hkne, hkc⟩ := keyOk_elim hkO
      have hsz : c.psize ≤ f ∧ restE.psize ≤ f := by
        have h1 := psizeE_pos restE
        have h2 := psizeT_pos c
        simp only [Entries.psize] at hfuel
        omega
      rw [show Entries.dumpChars (.cons k c restE) ++ ')' :: rest =
        k.data ++ '=' :: (c.dumpChars ++ ';' :: (restE.dumpChars ++ ')' :: rest)) from by
          simp [Entries.dumpChars]]
      rw [parseEntriesF_key_step f k.data _ hkne hkc]
      rw [parseTreeF_dump c (';' :: (restE.dumpChars ++ ')' :: rest)) f hsz.1 hcw
        (by intro cc hcc
            simp only [List.head?_cons, Option.some.injEq] at hcc
            rw [← hcc]; decide)]
      simp [parseEntriesF_dump restE rest f hsz.2 hrw]
termination_by structural es => es
end

mutual
theorem psize_le_dumpT : ∀ t : CfgNode, t.psize ≤ t.dumpChars.length + 1
  | .leaf v => by
    simp only [CfgNode.psize, CfgNode.dumpChars]
    omega
  | .node es => by
    have := psize_le_dumpE es
    simp only [CfgNode.psize, CfgNode.dumpChars, List.length_cons, List.length_append]
    simp only [List.length_cons, List.length_nil]
    omega
termination_by structural t => t

theorem psize_le_dumpE : ∀ es : Entries, es.psize ≤ es.dumpChars.length + 1
  | .nil => by simp [Entries.psize, Entries.dumpChars]
  | .cons k c rest => by
    have h1 := psize_le_dumpT c
    have h2 := psize_le_dumpE rest
    simp only [Entries.psize, Entries.dumpChars, List.length_append, List.length_cons]
    omega
termination_by structural es => es
end

theorem parse_dump {t : CfgNode} (hwf : t.wfKeys = true) :
    parse (String.mk t.dumpChars) = .ok t := by
  have h := parseTreeF_dump t [] (t.dumpChars.length + 1)
    (le_trans (psize_le_dumpT t) (by omega)) hwf
    (by intro c hc; simp at hc)
  rw [List.append_nil] at h
  simp only [parse]
  simp [h]

/-- C9 (serialization round-trip): for every constructed tree, parsing the
text produced by `dump` yields a tree with exactly the same leaf key paths
and the identical value at every path. -/
theorem dumpParseRoundTrip_C9 :
    ∀ (file : Option CfgNode) (ol : List Value) (c : Config),
      Config.build file ol = .ok c →
      ∃ t, parse (Config.dump c) = .ok t ∧ t.leafPaths = c.root.leafPaths ∧
        ∀ p, t.leafAt p = c.root.leafAt p := by
  intro file ol c h
  have hwf : c.root.wfKeys = true := by
    rw [build_ok_wfKeys h]
    decide
  exact ⟨c.root, parse_dump hwf, rfl, fun p => rfl⟩

theorem dumpParseRoundTrip_C9_witness :
    ∃ t, parse (Config.dump ⟨defaultSchema, true⟩) = .ok t ∧
      t.leafPaths = (Config.mk defaultSchema true).root.leafPaths ∧
      ∀ p, t.leafAt p = (Config.mk defaultSchema true).root.leafAt p :=
  dumpParseRoundTrip_C9 none [] ⟨defaultSchema, true⟩ (by decide)

end Virtex
